import Mathlib

/-! Delegation registry and HTTP option builders.

A shallow embedding of `internal/global/logs.go` (the placeholder logger
provider, its placeholder logger handles and the hand-off to an installed
backend) and of `exporters/otlp/otlplogs/otlplogshttp/options.go` (the option
constructors), followed by the properties proved about them.

Conventions of the embedding.

* Go pointers to `logger` objects are addresses into `World.heap`; the object
  built by `&logger{...}` is appended to the heap and its address is the old
  heap length.
* A `[]logs.LoggerOption` is a `Slice`, a window into a backing array of
  `World.arrays`.  `Logger` receives the caller's slice and the placeholder
  keeps that slice, not a copy: what the slice shows is read when it is used,
  and a caller that overwrites an element changes what is read later.
* A Go `map[il]*logger` is an association list with at most one entry per
  key; `none` is the nil map.  `range` visits the entries in list order; Go
  leaves the order unspecified, and `rangeSetDelegate_order` shows that the
  order decides neither whether the loop completes nor the heap it leaves.
* Each registry method runs from `Lock` to the deferred `Unlock` without any
  other synchronisation point and is one atomic transition in `World`; the
  mutex itself appears in `Machine`, where threads inside `Logger` take their
  steps one statement at a time under a schedule.
* A panic is an outcome which keeps the state reached when it was raised.
* Calls that leave the registry (the backend's `Logger`, a backend handle's
  `Emit`) are appended to `World.trace`.
-/

namespace logs

/-- Modelled from the spec: the options of package `logs` accepted by
`Logger`, which is not part of the sources at hand.  The spec only says that
the options "include an optional version tag used as part of the identity
key"; a schema URL stands for every option that is not the version tag. -/
inductive LoggerOption where
  | WithInstrumentationVersion (version : String)
  | WithSchemaURL (schemaURL : String)
  deriving DecidableEq

/-- Modelled from the spec: the configuration that `NewLoggerConfig` folds the
options into. -/
structure LoggerConfig where
  instrumentationVersion : String
  schemaURL : String
  deriving DecidableEq

/-- Modelled from the spec: one option applied to a configuration. -/
def LoggerOption.apply : LoggerOption → LoggerConfig → LoggerConfig
  | .WithInstrumentationVersion version, config =>
      { config with instrumentationVersion := version }
  | .WithSchemaURL schemaURL, config => { config with schemaURL := schemaURL }

/-- Modelled from the spec: `logs.NewLoggerConfig(opts...)`, the options
applied in order to the zero configuration. -/
def NewLoggerConfig (options : List LoggerOption) : LoggerConfig :=
  options.foldl (fun config option => option.apply config) ⟨"", ""⟩

/-- Modelled from the spec: the version tag of a configuration. -/
def LoggerConfig.InstrumentationVersion (c : LoggerConfig) : String :=
  c.instrumentationVersion

/-- Modelled from the spec: a log record; its shape is outside the registry,
which only passes records on. -/
structure LogRecord where
  body : String
  severity : Nat
  deriving DecidableEq

/-- Modelled from the spec: a non-nil `logs.Logger` interface value produced
by a backend ("a backend-provided handle"), given by its dynamic type and the
identity of the object behind it.  The interface is declared in package
`logs`, outside the sources at hand. -/
structure LoggerValue where
  dynType : Nat
  ref : Nat
  deriving DecidableEq

/-- Modelled from the spec: a non-nil `logs.LoggerProvider` interface value,
"a concrete logging backend capable of producing real handles by (name,
options)".  Its `Logger` method is a function of the name and the options;
`none` is the nil interface value as a result.  The interface is declared in
package `logs`, outside the sources at hand. -/
structure LoggerProvider where
  id : Nat
  Logger : String → List LoggerOption → Option LoggerValue

end logs

namespace global

open logs

/-- The identity key of a placeholder handle. -/
structure il where
  name : String
  version : String
  deriving DecidableEq

/-- The state of a `sync/atomic.Value`: the value held (`none` before the
first store) and, as a ghost counter, the number of completed stores. -/
structure AtomicValue where
  v : Option LoggerValue
  stores : Nat
  deriving DecidableEq

/-- The zero `atomic.Value`. -/
def AtomicValue.zero : AtomicValue := ⟨none, 0⟩

/-- The method `Load`: the value held, nil when nothing was stored. -/
def AtomicValue.Load (a : AtomicValue) : Option LoggerValue := a.v

/-- The method `Store`: storing nil panics, storing a value whose dynamic type
differs from the one held panics, anything else replaces the value. -/
def AtomicValue.Store (a : AtomicValue) (val : Option LoggerValue) :
    Except String AtomicValue :=
  match val with
  | none => .error "sync/atomic: store of nil value into Value"
  | some x =>
    match a.v with
    | none => .ok ⟨some x, a.stores + 1⟩
    | some old =>
      if old.dynType = x.dynType then .ok ⟨some x, a.stores + 1⟩
      else .error "sync/atomic: store of inconsistently typed value into Value"

/-- A slice value `[]logs.LoggerOption`: the window of `len` elements that
starts at `off` in the backing array `array`.  The nil slice has length 0. -/
structure Slice where
  array : Nat
  off : Nat
  len : Nat
  deriving DecidableEq

/-- The elements a slice shows in the given memory of backing arrays. -/
def readSlice (arrays : List (List LoggerOption)) (s : Slice) : List LoggerOption :=
  (((arrays[s.array]?).getD []).drop s.off).take s.len

/-- The element write `a[i] = x` made by code that holds the backing array
`a`; there is nothing to write outside an array. -/
def writeArray (arrays : List (List LoggerOption)) (a i : Nat) (x : LoggerOption) :
    List (List LoggerOption) :=
  match arrays[a]? with
  | none => arrays
  | some arr => arrays.set a (arr.set i x)

/-- A placeholder handle object; `opts` is the slice the caller passed. -/
structure logger where
  name : String
  opts : Slice
  provider : Nat
  delegate : AtomicValue
  deriving DecidableEq

/-- The registry object; the mutex is left to the thread-level machine. -/
structure loggerProvider where
  loggers : Option (List (il × Nat))
  delegate : Option LoggerProvider

/-- A call that leaves the registry; for the backend's `Logger` the options
are the elements its argument slice showed at the call. -/
inductive Event where
  | providerLogger (provider : Nat) (name : String) (opts : List LoggerOption)
  | loggerEmit (l : LoggerValue) (logRecord : LogRecord)
  deriving DecidableEq

/-- The registry at address `addr`, the placeholder objects it allocated, the
calls made to backends so far and the backing arrays of the option slices. -/
structure World where
  addr : Nat
  p : loggerProvider
  heap : List logger
  trace : List Event
  arrays : List (List LoggerOption)

/-- How a call ends: it returns a value, or it panics; both keep a state. -/
inductive Outcome (α : Type) where
  | returned (a : α) (w : World)
  | panicked (msg : String) (w : World)

/-- The state a call leaves behind. -/
def Outcome.world {α : Type} : Outcome α → World
  | .returned _ w => w
  | .panicked _ w => w

/-- The message of the panic, if the call panicked. -/
def Outcome.panic {α : Type} : Outcome α → Option String
  | .returned _ _ => none
  | .panicked msg _ => some msg

/-- Whether the call returned normally. -/
def Outcome.completed {α : Type} : Outcome α → Bool
  | .returned _ _ => true
  | .panicked _ _ => false

/-- A `logs.Logger` interface value as `loggerProvider.Logger` returns it: a
pointer to a placeholder object, or whatever the backend returned. -/
inductive Handle where
  | placeholder (t : Nat)
  | backend (l : Option LoggerValue)
  deriving DecidableEq

/-- The message of a nil dereference. -/
def nilDeref : String := "invalid memory address or nil pointer dereference"

/-- The entries of a Go map: `len` and `range` treat the nil map as empty. -/
def entries : Option (List (il × Nat)) → List (il × Nat)
  | none => []
  | some m => m

/-- The map read `m[key]`. -/
def mapGet (key : il) : List (il × Nat) → Option Nat
  | [] => none
  | (k, val) :: rest => if k = key then some val else mapGet key rest

/-- The map write `m[key] = t` for a key that may be present. -/
def mapSet (key : il) (t : Nat) : List (il × Nat) → List (il × Nat)
  | [] => [(key, t)]
  | (k, val) :: rest =>
    if k = key then (k, t) :: rest else (k, val) :: mapSet key t rest

/-- A fresh registry `&loggerProvider{}` at address `addr`, in a memory of
backing arrays. -/
def init (addr : Nat) (arrays : List (List LoggerOption)) : World :=
  ⟨addr, ⟨none, none⟩, [], [], arrays⟩

/-- The method `(*logger).setDelegate` on the object at address `t`. -/
def logger.setDelegate (w : World) (t : Nat) (provider : Option LoggerProvider) :
    Outcome Unit :=
  match w.heap[t]? with
  | none => .panicked nilDeref w
  | some obj =>
    match provider with
    | none => .panicked nilDeref w
    | some b =>
      let w1 : World :=
        { w with
          trace := w.trace ++
            [.providerLogger b.id obj.name (readSlice w.arrays obj.opts)] }
      match obj.delegate.Store (b.Logger obj.name (readSlice w.arrays obj.opts)) with
      | .error msg => .panicked msg w1
      | .ok d => .returned () { w1 with heap := w1.heap.set t { obj with delegate := d } }

/-- The loop `for _, t := range p.loggers { t.setDelegate(provider) }`. -/
def rangeSetDelegate (provider : Option LoggerProvider) :
    List (il × Nat) → World → Outcome Unit
  | [], w => .returned () w
  | (_, t) :: rest, w =>
    match logger.setDelegate w t provider with
    | .panicked msg w1 => .panicked msg w1
    | .returned _ w1 => rangeSetDelegate provider rest w1

/-- The method `(*loggerProvider).setDelegate`. -/
def loggerProvider.setDelegate (w : World) (provider : Option LoggerProvider) :
    Outcome Unit :=
  let w1 : World := { w with p := { w.p with delegate := provider } }
  if (entries w1.p.loggers).length = 0 then .returned () w1
  else
    match rangeSetDelegate provider (entries w1.p.loggers) w1 with
    | .panicked msg w2 => .panicked msg w2
    | .returned _ w2 => .returned () { w2 with p := { w2.p with loggers := none } }

/-- The method `(*loggerProvider).Logger`: the handle returned and the state
left.  It has no panicking path of its own. -/
def loggerProvider.Logger (w : World) (name : String) (opts : Slice) :
    Handle × World :=
  match w.p.delegate with
  | some b =>
    (.backend (b.Logger name (readSlice w.arrays opts)),
      { w with trace := w.trace ++ [.providerLogger b.id name (readSlice w.arrays opts)] })
  | none =>
    let c := NewLoggerConfig (readSlice w.arrays opts)
    let key : il := ⟨name, c.InstrumentationVersion⟩
    let m := entries w.p.loggers
    match mapGet key m with
    | some val => (.placeholder val, { w with p := { w.p with loggers := some m } })
    | none =>
      let t := w.heap.length
      (.placeholder t,
        { w with
          heap := w.heap ++ [⟨name, opts, w.addr, AtomicValue.zero⟩]
          p := { w.p with loggers := some (mapSet key t m) } })

/-- The method `(*logger).Emit` on the object at address `t`. -/
def logger.Emit (w : World) (t : Nat) (logRecord : LogRecord) : Outcome Unit :=
  match w.heap[t]? with
  | none => .panicked nilDeref w
  | some obj =>
    match obj.delegate.Load with
    | none => .returned () w
    | some delegate =>
      .returned () { w with trace := w.trace ++ [.loggerEmit delegate logRecord] }

/-- The identity key that `Logger` computes from the name and the elements
its options slice shows. -/
def keyOf (name : String) (opts : List LoggerOption) : il :=
  ⟨name, (NewLoggerConfig opts).InstrumentationVersion⟩

/-- What application code does with the registry and with its own option
slices: it calls `Logger(name, opts...)`, or it overwrites an element of a
backing array. -/
inductive Call where
  | Logger (name : String) (opts : Slice)
  | write (a i : Nat) (x : LoggerOption)
  deriving DecidableEq

/-- Whether the action is an element write. -/
def Call.isWrite : Call → Bool
  | .Logger _ _ => false
  | .write _ _ _ => true

/-- Successive actions of application code: what each returned, in order
(`none` for a write), and the state left by the last. -/
def acquire (w : World) : List Call → List (Option Handle) × World
  | [] => ([], w)
  | .Logger name opts :: rest =>
    let r := loggerProvider.Logger w name opts
    let rs := acquire r.2 rest
    (some r.1 :: rs.1, rs.2)
  | .write a i x :: rest =>
    let rs := acquire { w with arrays := writeArray w.arrays a i x } rest
    (none :: rs.1, rs.2)

/-- The state in which the action at position `i` of a sequence starts. -/
def before (w : World) (calls : List Call) (i : Nat) : World :=
  (acquire w (calls.take i)).2

/-- The state of a registry on which only `Logger` has been called: no
backend, a map with one entry per key and per object, every entry pointing at
an object, every slot still empty, no call made to a backend. -/
structure PreInstall (w : World) : Prop where
  nodelegate : w.p.delegate = none
  keys : ((entries w.p.loggers).map Prod.fst).Nodup
  vals : ((entries w.p.loggers).map Prod.snd).Nodup
  bound : ∀ (k : il) (t : Nat), (k, t) ∈ entries w.p.loggers →
    ∃ obj, w.heap[t]? = some obj ∧ k.name = obj.name
  fresh : ∀ (t : Nat) (obj : logger), w.heap[t]? = some obj →
    obj.delegate = AtomicValue.zero
  full : ∀ (t : Nat) (obj : logger), w.heap[t]? = some obj →
    t ∈ (entries w.p.loggers).map Prod.snd
  quiet : w.trace = []

/-- Every entry of the map is filed under the key that its object's name and
the present content of its object's slice give. -/
def Keyed (w : World) : Prop :=
  ∀ (k : il) (t : Nat), (k, t) ∈ entries w.p.loggers →
    ∃ obj, w.heap[t]? = some obj ∧ k = keyOf obj.name (readSlice w.arrays obj.opts)

/-- A number that tells options apart in the examples. -/
def optionWeight : LoggerOption → Nat
  | .WithInstrumentationVersion version => 1 + version.length
  | .WithSchemaURL schemaURL => 100 + schemaURL.length

/-- A backend for the examples: it hands out handles of one dynamic type,
told apart by the name and the options they were asked for. -/
def sampleBackend : LoggerProvider :=
  ⟨1, fun name opts => some ⟨7, 1000 * name.length + (opts.map optionWeight).sum⟩⟩

/-- A second backend for the examples. -/
def otherBackend : LoggerProvider :=
  ⟨2, fun name opts => some ⟨8, 1000 * name.length + (opts.map optionWeight).sum + 1⟩⟩

/-- A backend whose `Logger` method returns the nil interface value. -/
def nilBackend : LoggerProvider := ⟨3, fun _ _ => none⟩

/-- An operation on the registry or on the placeholder object at an address,
or an element write by code that holds a backing array. -/
inductive Op where
  | Logger (name : String) (opts : Slice)
  | setDelegate (provider : Option LoggerProvider)
  | Emit (t : Nat) (logRecord : LogRecord)
  | write (a i : Nat) (x : LoggerOption)

/-- The state after one operation.  When the operation panics this is the
state reached at the panic, which is what a caller that recovers goes on with. -/
def step (w : World) : Op → World
  | .Logger name opts => (loggerProvider.Logger w name opts).2
  | .setDelegate provider => (loggerProvider.setDelegate w provider).world
  | .Emit t logRecord => (logger.Emit w t logRecord).world
  | .write a i x => { w with arrays := writeArray w.arrays a i x }

/-- The state after a sequence of operations. -/
def run (w : World) : List Op → World
  | [] => w
  | op :: rest => run (step w op) rest

/-- The number of `setDelegate` operations in a sequence. -/
def installs : List Op → Nat
  | [] => 0
  | .setDelegate _ :: rest => installs rest + 1
  | .Logger _ _ :: rest => installs rest
  | .Emit _ _ :: rest => installs rest
  | .write _ _ _ :: rest => installs rest

/-- The shape of the map in every state: no object is entered twice and every
entry points into the heap. -/
structure MapShape (w : World) : Prop where
  vals : ((entries w.p.loggers).map Prod.snd).Nodup
  valid : ∀ t ∈ (entries w.p.loggers).map Prod.snd, t < w.heap.length

/-- Every slot is as `&logger{...}` left it. -/
def Untouched (w : World) : Prop :=
  ∀ obj ∈ w.heap, obj.delegate = AtomicValue.zero

/-- Every slot is as `&logger{...}` left it or has been stored into once. -/
def StoredOnce (w : World) : Prop :=
  ∀ obj ∈ w.heap, obj.delegate = AtomicValue.zero ∨ ∃ v, obj.delegate = ⟨some v, 1⟩

/-! ## Threads calling `Logger` -/

/-- Where a thread stands inside `loggerProvider.Logger`. -/
inductive Pc where
  /-- Before `p.mtx.Lock()`. -/
  | atLock
  /-- The mutex is held; before `if p.delegate != nil`. -/
  | atDelegate
  /-- Before the key is computed, the nil map replaced and `p.loggers[key]` read. -/
  | atLookup
  /-- After a failed lookup for `key`; before `t := &logger{...}` and
  `p.loggers[key] = t`. -/
  | atInsert (key : il)
  /-- The return value is fixed; the deferred `p.mtx.Unlock()` is pending. -/
  | atUnlock (ret : Handle)
  /-- The call has returned. -/
  | done (ret : Handle)
  deriving DecidableEq

/-- A thread running one `Logger(name, opts...)` call. -/
structure Thread where
  name : String
  opts : Slice
  pc : Pc
  deriving DecidableEq

/-- The registry shared by the threads, its mutex (`true` when locked) and the
threads. -/
structure Machine where
  w : World
  mtx : Bool
  threads : List Thread

/-- Thread `i` takes its next step.  A thread at `Lock` while the mutex is
held is blocked and a thread that has returned has nothing to do: the machine
stays as it is. -/
def Machine.step (m : Machine) (i : Nat) : Machine :=
  match m.threads[i]? with
  | none => m
  | some th =>
    match th.pc with
    | .atLock =>
      if m.mtx then m
      else { m with mtx := true, threads := m.threads.set i { th with pc := .atDelegate } }
    | .atDelegate =>
      match m.w.p.delegate with
      | some b =>
        { m with
          w := { m.w with
            trace := m.w.trace ++
              [.providerLogger b.id th.name (readSlice m.w.arrays th.opts)] }
          threads := m.threads.set i
            { th with
              pc := .atUnlock (.backend (b.Logger th.name (readSlice m.w.arrays th.opts))) } }
      | none => { m with threads := m.threads.set i { th with pc := .atLookup } }
    | .atLookup =>
      let c := NewLoggerConfig (readSlice m.w.arrays th.opts)
      let key : il := ⟨th.name, c.InstrumentationVersion⟩
      let mp := entries m.w.p.loggers
      let w1 : World := { m.w with p := { m.w.p with loggers := some mp } }
      match mapGet key mp with
      | some val =>
        { m with w := w1, threads := m.threads.set i { th with pc := .atUnlock (.placeholder val) } }
      | none => { m with w := w1, threads := m.threads.set i { th with pc := .atInsert key } }
    | .atInsert key =>
      let t := m.w.heap.length
      { m with
        w := { m.w with
          heap := m.w.heap ++ [⟨th.name, th.opts, m.w.addr, AtomicValue.zero⟩]
          p := { m.w.p with loggers := some (mapSet key t (entries m.w.p.loggers)) } }
        threads := m.threads.set i { th with pc := .atUnlock (.placeholder t) } }
    | .atUnlock ret =>
      { m with mtx := false, threads := m.threads.set i { th with pc := .done ret } }
    | .done _ => m

/-- The machine after the threads named by a schedule have stepped in turn. -/
def Machine.exec (m : Machine) : List Nat → Machine
  | [] => m
  | i :: rest => Machine.exec (m.step i) rest

/-- A fresh registry in a memory of backing arrays and one thread per call,
none of them started. -/
def Machine.start (addr : Nat) (arrays : List (List LoggerOption))
    (args : List (String × Slice)) : Machine :=
  ⟨init addr arrays, false, args.map (fun a => ⟨a.1, a.2, .atLock⟩)⟩

/-- Whether a program point lies between `Lock` and `Unlock`. -/
def Pc.inside : Pc → Bool
  | .atLock => false
  | .atDelegate => true
  | .atLookup => true
  | .atInsert _ => true
  | .atUnlock _ => true
  | .done _ => false

/-- The number of steps a thread has left at most. -/
def Pc.remaining : Pc → Nat
  | .atLock => 5
  | .atDelegate => 4
  | .atLookup => 3
  | .atInsert _ => 2
  | .atUnlock _ => 1
  | .done _ => 0

/-- The steps left in a thread pool. -/
def remaining : List Thread → Nat
  | [] => 0
  | th :: rest => th.pc.remaining + remaining rest

/-- What a program point says about the registry when every thread uses the
key `k`: before the insertion nothing has been built; once a return value is
fixed it is the one placeholder object, which is in the map. -/
def Pc.Good (k : il) (w : World) : Pc → Prop
  | .atLock => True
  | .atDelegate => True
  | .atLookup => True
  | .atInsert key => key = k ∧ w.heap = [] ∧ entries w.p.loggers = []
  | .atUnlock ret =>
    ret = .placeholder 0 ∧ w.heap.length = 1 ∧ entries w.p.loggers = [(k, 0)]
  | .done ret =>
    ret = .placeholder 0 ∧ w.heap.length = 1 ∧ entries w.p.loggers = [(k, 0)]

/-- The invariant of the machine when every thread uses the key `k`. -/
structure Machine.Inv (k : il) (m : Machine) : Prop where
  nodelegate : m.w.p.delegate = none
  shape : (m.w.heap = [] ∧ entries m.w.p.loggers = []) ∨
    (m.w.heap.length = 1 ∧ entries m.w.p.loggers = [(k, 0)])
  good : ∀ (i : Nat) (th : Thread), m.threads[i]? = some th →
    keyOf th.name (readSlice m.w.arrays th.opts) = k ∧ th.pc.Good k m.w
  free : m.mtx = false → ∀ (i : Nat) (th : Thread), m.threads[i]? = some th →
    th.pc.inside = false
  alone : ∀ (i j : Nat) (thi thj : Thread), m.threads[i]? = some thi →
    m.threads[j]? = some thj → thi.pc.inside = true → thj.pc.inside = true → i = j
  held : m.mtx = true → ∃ (i : Nat) (th : Thread), m.threads[i]? = some th ∧
    th.pc.inside = true

end global

namespace tls

/-- A stand-in for the standard library's `crypto/tls.Config`, which the
option builders only pass on. -/
structure Config where
  ServerName : String
  InsecureSkipVerify : Bool
  deriving DecidableEq

/-- A pointer `*tls.Config`; `none` is the nil pointer. -/
abbrev ConfigPtr : Type := Option Config

end tls

namespace retry

/-- Modelled from the spec: the retry policy of the external retry component,
"initial backoff, multiplier/backoff growth, maximum total retry duration";
durations are nanoseconds. -/
structure Config where
  InitialInterval : Int
  Multiplier : Nat
  MaxElapsedTime : Int
  deriving DecidableEq

end retry

namespace otlpconfig

/-- Modelled from the spec: the compression algorithm, "none | gzip". -/
inductive Compression where
  | NoCompression
  | GzipCompression
  deriving DecidableEq

/-- Modelled from the spec: the configuration object of the exporter, one
field per recognised option: "endpoint, compression, URL path, TLS, insecure
flag, headers, timeout, retry policy". -/
structure Config where
  Endpoint : String
  Compression : Compression
  URLPath : String
  TLSCfg : tls.ConfigPtr
  Insecure : Bool
  Headers : List (String × String)
  Timeout : Int
  RetryConfig : retry.Config
  deriving DecidableEq

/-- Modelled from the spec: an `otlpconfig.HTTPOption`, a value with the method
`ApplyHTTPOption`. -/
structure HTTPOption where
  ApplyHTTPOption : Config → Config

/-- Modelled from the spec: the endpoint override. -/
def WithEndpoint (endpoint : String) : HTTPOption :=
  ⟨fun cfg => { cfg with Endpoint := endpoint }⟩

/-- Modelled from the spec: the compression algorithm selection. -/
def WithCompression (compression : Compression) : HTTPOption :=
  ⟨fun cfg => { cfg with Compression := compression }⟩

/-- Modelled from the spec: the URL path override. -/
def WithURLPath (urlPath : String) : HTTPOption :=
  ⟨fun cfg => { cfg with URLPath := urlPath }⟩

/-- Modelled from the spec: the TLS client configuration override. -/
def WithTLSClientConfig (tlsCfg : tls.ConfigPtr) : HTTPOption :=
  ⟨fun cfg => { cfg with TLSCfg := tlsCfg }⟩

/-- Modelled from the spec: the insecure-transport flag. -/
def WithInsecure : HTTPOption :=
  ⟨fun cfg => { cfg with Insecure := true }⟩

/-- Modelled from the spec: the additional static headers. -/
def WithHeaders (headers : List (String × String)) : HTTPOption :=
  ⟨fun cfg => { cfg with Headers := headers }⟩

/-- Modelled from the spec: the request timeout. -/
def WithTimeout (duration : Int) : HTTPOption :=
  ⟨fun cfg => { cfg with Timeout := duration }⟩

/-- Modelled from the spec: the retry policy. -/
def WithRetry (rc : retry.Config) : HTTPOption :=
  ⟨fun cfg => { cfg with RetryConfig := rc }⟩

end otlpconfig

namespace otlplogshttp

/-- The named type `Compression`, whose underlying type is
`otlpconfig.Compression`. -/
structure Compression where
  raw : otlpconfig.Compression
  deriving DecidableEq

/-- The constant `NoCompression`. -/
def NoCompression : Compression := ⟨otlpconfig.Compression.NoCompression⟩

/-- The constant `GzipCompression`. -/
def GzipCompression : Compression := ⟨otlpconfig.Compression.GzipCompression⟩

/-- The named type `RetryConfig`, whose underlying type is `retry.Config`. -/
structure RetryConfig where
  raw : retry.Config
  deriving DecidableEq

/-- The struct `wrappedOption`, which embeds an `otlpconfig.HTTPOption`. -/
structure wrappedOption where
  HTTPOption : otlpconfig.HTTPOption

/-- The method `applyHTTPOption` of `wrappedOption`. -/
def wrappedOption.applyHTTPOption (w : wrappedOption) (cfg : otlpconfig.Config) :
    otlpconfig.Config :=
  w.HTTPOption.ApplyHTTPOption cfg

/-- The interface `Option`: a value with the method `applyHTTPOption`. -/
structure Option where
  applyHTTPOption : otlpconfig.Config → otlpconfig.Config

/-- A `wrappedOption` used as an `Option`. -/
def wrappedOption.asOption (w : wrappedOption) : Option := ⟨w.applyHTTPOption⟩

/-- The constructor `WithEndpoint`. -/
def WithEndpoint (endpoint : String) : Option :=
  (wrappedOption.mk (otlpconfig.WithEndpoint endpoint)).asOption

/-- The constructor `WithCompression`. -/
def WithCompression (compression : Compression) : Option :=
  (wrappedOption.mk (otlpconfig.WithCompression compression.raw)).asOption

/-- The constructor `WithURLPath`. -/
def WithURLPath (urlPath : String) : Option :=
  (wrappedOption.mk (otlpconfig.WithURLPath urlPath)).asOption

/-- The constructor `WithTLSClientConfig`. -/
def WithTLSClientConfig (tlsCfg : tls.ConfigPtr) : Option :=
  (wrappedOption.mk (otlpconfig.WithTLSClientConfig tlsCfg)).asOption

/-- The constructor `WithInsecure`. -/
def WithInsecure : Option :=
  (wrappedOption.mk otlpconfig.WithInsecure).asOption

/-- The constructor `WithHeaders`. -/
def WithHeaders (headers : List (String × String)) : Option :=
  (wrappedOption.mk (otlpconfig.WithHeaders headers)).asOption

/-- The constructor `WithTimeout`. -/
def WithTimeout (duration : Int) : Option :=
  (wrappedOption.mk (otlpconfig.WithTimeout duration)).asOption

/-- The constructor `WithRetry`. -/
def WithRetry (rc : RetryConfig) : Option :=
  (wrappedOption.mk (otlpconfig.WithRetry rc.raw)).asOption

end otlplogshttp

/-! # Properties -/

namespace global

open logs

/-! ## The map -/

theorem mapGet_mem {key : il} {t : Nat} :
    ∀ {m : List (il × Nat)}, mapGet key m = some t → (key, t) ∈ m
  | [], h => by simp [mapGet] at h
  | (k, val) :: rest, h => by
    unfold mapGet at h
    split at h
    · rename_i hk
      cases hk
      cases h
      exact List.mem_cons_self _ _
    · exact List.mem_cons_of_mem _ (mapGet_mem h)

theorem mapGet_none_iff {key : il} :
    ∀ {m : List (il × Nat)}, mapGet key m = none ↔ key ∉ m.map Prod.fst
  | [] => by simp [mapGet]
  | (k, val) :: rest => by
    unfold mapGet
    by_cases hk : k = key
    · simp [hk]
    · have ih := @mapGet_none_iff key rest
      simp only [hk, if_false, List.map_cons, List.mem_cons, not_or]
      constructor
      · intro h
        exact ⟨fun e => hk e.symm, ih.mp h⟩
      · intro h
        exact ih.mpr h.2

theorem mapGet_of_mem {key : il} {t : Nat} :
    ∀ {m : List (il × Nat)}, (m.map Prod.fst).Nodup → (key, t) ∈ m →
      mapGet key m = some t
  | [], _, h => by simp at h
  | (k, val) :: rest, hnd, h => by
    rw [List.map_cons, List.nodup_cons] at hnd
    unfold mapGet
    rcases List.mem_cons.mp h with h1 | h1
    · cases h1
      simp
    · have hne : k ≠ key := by
        intro e
        apply hnd.1
        rw [e]
        exact List.mem_map.mpr ⟨(key, t), h1, rfl⟩
      simp only [hne, if_false]
      exact mapGet_of_mem hnd.2 h1

theorem mapSet_absent {key : il} {t : Nat} :
    ∀ {m : List (il × Nat)}, mapGet key m = none → mapSet key t m = m ++ [(key, t)]
  | [], _ => rfl
  | (k, val) :: rest, h => by
    unfold mapGet at h
    unfold mapSet
    by_cases hk : k = key
    · simp [hk] at h
    · simp only [hk, if_false] at h ⊢
      rw [mapSet_absent h]
      rfl

/-! ## Acquiring handles before installation -/

theorem preInstall_init (addr : Nat) (arrays : List (List LoggerOption)) :
    PreInstall (init addr arrays) where
  nodelegate := rfl
  keys := by simp [init, entries]
  vals := by simp [init, entries]
  bound := by simp [init, entries]
  fresh := by simp [init]
  full := by simp [init]
  quiet := rfl

theorem vals_injective {m : List (il × Nat)} (hm : (m.map Prod.snd).Nodup) {k1 k2 : il}
    {t : Nat} (h1 : (k1, t) ∈ m) (h2 : (k2, t) ∈ m) : k1 = k2 := by
  have hinj := List.inj_on_of_nodup_map hm h1 h2 rfl
  exact (Prod.mk.inj hinj).1

theorem Logger_arrays (w : World) (name : String) (opts : Slice) :
    (loggerProvider.Logger w name opts).2.arrays = w.arrays := by
  unfold loggerProvider.Logger
  cases w.p.delegate with
  | some b => rfl
  | none =>
    simp only
    cases mapGet (⟨name, (NewLoggerConfig (readSlice w.arrays opts)).InstrumentationVersion⟩ : il)
        (entries w.p.loggers) <;> rfl

theorem nodup_snoc {α : Type} {l : List α} {a : α} (hl : l.Nodup) (ha : a ∉ l) :
    (l ++ [a]).Nodup :=
  List.Nodup.append hl (List.nodup_singleton a) (List.disjoint_singleton.mpr ha)

theorem Logger_hit {w : World} (hd : w.p.delegate = none) {name : String}
    {opts : Slice} {val : Nat}
    (hget : mapGet (keyOf name (readSlice w.arrays opts)) (entries w.p.loggers) = some val) :
    loggerProvider.Logger w name opts =
      (.placeholder val, { w with p := { w.p with loggers := some (entries w.p.loggers) } }) := by
  unfold keyOf at hget
  unfold loggerProvider.Logger
  rw [hd]
  simp only [hget]

theorem Logger_miss {w : World} (hd : w.p.delegate = none) {name : String}
    {opts : Slice}
    (hget : mapGet (keyOf name (readSlice w.arrays opts)) (entries w.p.loggers) = none) :
    loggerProvider.Logger w name opts =
      (.placeholder w.heap.length,
        { w with
          heap := w.heap ++ [⟨name, opts, w.addr, AtomicValue.zero⟩]
          p := { w.p with
            loggers := some (entries w.p.loggers ++ [(keyOf name (readSlice w.arrays opts), w.heap.length)]) } }) := by
  have hset := mapSet_absent (t := w.heap.length) hget
  unfold keyOf at hget hset
  unfold loggerProvider.Logger
  rw [hd]
  simp only [hget, hset, keyOf]

theorem Logger_preInstall {w : World} (hw : PreInstall w) (name : String)
    (opts : Slice) :
    PreInstall (loggerProvider.Logger w name opts).2 ∧
    (loggerProvider.Logger w name opts).2.addr = w.addr ∧
    (∀ (t : Nat) (obj : logger), w.heap[t]? = some obj →
      (loggerProvider.Logger w name opts).2.heap[t]? = some obj) ∧
    (∀ k t, mapGet k (entries w.p.loggers) = some t →
      mapGet k (entries (loggerProvider.Logger w name opts).2.p.loggers) = some t) ∧
    ∃ t, (loggerProvider.Logger w name opts).1 = .placeholder t ∧
      mapGet (keyOf name (readSlice w.arrays opts)) (entries (loggerProvider.Logger w name opts).2.p.loggers)
        = some t ∧
      (t < w.heap.length ∨
        (loggerProvider.Logger w name opts).2.heap[t]?
          = some ⟨name, opts, w.addr, AtomicValue.zero⟩) := by
  have hd := hw.nodelegate
  cases hget : mapGet (keyOf name (readSlice w.arrays opts)) (entries w.p.loggers) with
  | some val =>
    rw [Logger_hit hd hget]
    refine ⟨⟨hd, hw.keys, hw.vals, hw.bound, hw.fresh, hw.full, hw.quiet⟩, rfl, fun _ _ h => h,
      fun _ _ h => h, val, rfl, hget, Or.inl ?_⟩
    obtain ⟨obj, hobj, -⟩ := hw.bound _ _ (mapGet_mem hget)
    exact (List.getElem?_eq_some_iff.mp hobj).1
  | none =>
    rw [Logger_miss hd hget]
    have hnew : (w.heap ++ [(⟨name, opts, w.addr, AtomicValue.zero⟩ : logger)])[w.heap.length]?
        = some ⟨name, opts, w.addr, AtomicValue.zero⟩ := by
      simp
    have hold : ∀ (t : Nat) (obj : logger), w.heap[t]? = some obj →
        (w.heap ++ [(⟨name, opts, w.addr, AtomicValue.zero⟩ : logger)])[t]? = some obj := by
      intro t obj h
      rw [List.getElem?_append_left (List.getElem?_eq_some_iff.mp h).1]
      exact h
    have hkey : keyOf name (readSlice w.arrays opts) ∉ (entries w.p.loggers).map Prod.fst :=
      mapGet_none_iff.mp hget
    have hval : w.heap.length ∉ (entries w.p.loggers).map Prod.snd := by
      intro hmem
      obtain ⟨⟨k, t⟩, hkt, ht⟩ := List.mem_map.mp hmem
      simp only at ht
      subst ht
      obtain ⟨obj, hobj, -⟩ := hw.bound _ _ hkt
      exact absurd (List.getElem?_eq_some_iff.mp hobj).1 (lt_irrefl _)
    have hk : ((entries w.p.loggers ++ [(keyOf name (readSlice w.arrays opts), w.heap.length)]).map
        Prod.fst).Nodup := by
      rw [List.map_append]
      exact nodup_snoc hw.keys hkey
    have hv : ((entries w.p.loggers ++ [(keyOf name (readSlice w.arrays opts), w.heap.length)]).map
        Prod.snd).Nodup := by
      rw [List.map_append]
      exact nodup_snoc hw.vals hval
    have hsplit : ∀ (t : Nat) (obj : logger),
        (w.heap ++ [(⟨name, opts, w.addr, AtomicValue.zero⟩ : logger)])[t]? = some obj →
        w.heap[t]? = some obj ∨
          (t = w.heap.length ∧ obj = ⟨name, opts, w.addr, AtomicValue.zero⟩) := by
      intro t obj h
      by_cases hlt : t < w.heap.length
      · left
        rw [← List.getElem?_append_left hlt]
        exact h
      · have hlen := (List.getElem?_eq_some_iff.mp h).1
        simp only [List.length_append, List.length_singleton] at hlen
        have ht : t = w.heap.length := by omega
        subst ht
        have h2 : some obj = some (⟨name, opts, w.addr, AtomicValue.zero⟩ : logger) := by
          rw [← h]
          exact hnew
        cases h2
        exact Or.inr ⟨rfl, rfl⟩
    refine ⟨⟨hd, hk, hv, ?_, ?_, ?_, hw.quiet⟩, rfl, hold, ?_, w.heap.length, rfl, ?_,
      Or.inr hnew⟩
    · intro k t hkt
      rcases List.mem_append.mp hkt with h | h
      · obtain ⟨obj, hobj, hk⟩ := hw.bound _ _ h
        exact ⟨obj, hold _ _ hobj, hk⟩
      · simp only [List.mem_singleton, Prod.mk.injEq] at h
        obtain ⟨rfl, rfl⟩ := h
        exact ⟨_, hnew, rfl⟩
    · intro t obj h
      rcases hsplit t obj h with h' | ⟨-, rfl⟩
      · exact hw.fresh _ _ h'
      · rfl
    · intro t obj h
      show t ∈ (entries w.p.loggers ++ [(keyOf name (readSlice w.arrays opts), w.heap.length)]).map Prod.snd
      rw [List.map_append]
      rcases hsplit t obj h with h' | ⟨rfl, -⟩
      · exact List.mem_append_left _ (hw.full _ _ h')
      · exact List.mem_append_right _ (List.mem_singleton_self _)
    · intro k t h
      exact mapGet_of_mem hk (List.mem_append_left _ (mapGet_mem h))
    · exact mapGet_of_mem hk (List.mem_append_right _ (List.mem_singleton_self _))

theorem Logger_heap_new {w : World} (hw : PreInstall w) (name : String)
    (opts : Slice) (t : Nat)
    (ht : t < (loggerProvider.Logger w name opts).2.heap.length) :
    t < w.heap.length ∨
      ((loggerProvider.Logger w name opts).1 = .placeholder t ∧
        (loggerProvider.Logger w name opts).2.heap[t]?
          = some ⟨name, opts, w.addr, AtomicValue.zero⟩) := by
  have hd := hw.nodelegate
  cases hget : mapGet (keyOf name (readSlice w.arrays opts)) (entries w.p.loggers) with
  | some val =>
    rw [Logger_hit hd hget] at ht
    exact Or.inl ht
  | none =>
    rw [Logger_miss hd hget] at ht ⊢
    simp only [List.length_append, List.length_singleton] at ht
    by_cases hlt : t < w.heap.length
    · exact Or.inl hlt
    · have e : t = w.heap.length := by omega
      subst e
      refine Or.inr ⟨rfl, ?_⟩
      simp

theorem preInstall_write {w : World} (hw : PreInstall w) (a i : Nat) (x : LoggerOption) :
    PreInstall { w with arrays := writeArray w.arrays a i x } :=
  ⟨hw.nodelegate, hw.keys, hw.vals, hw.bound, hw.fresh, hw.full, hw.quiet⟩

theorem before_zero (w : World) (calls : List Call) : before w calls 0 = w := rfl

theorem before_Logger (w : World) (name : String) (opts : Slice) (rest : List Call)
    (i : Nat) :
    before w (.Logger name opts :: rest) (i + 1)
      = before (loggerProvider.Logger w name opts).2 rest i := rfl

theorem before_write (w : World) (a k : Nat) (x : LoggerOption) (rest : List Call)
    (i : Nat) :
    before w (.write a k x :: rest) (i + 1)
      = before { w with arrays := writeArray w.arrays a k x } rest i := rfl

theorem acquire_spec :
    ∀ (calls : List Call) {w : World}, PreInstall w →
      PreInstall (acquire w calls).2 ∧
      (acquire w calls).2.addr = w.addr ∧
      (∀ (t : Nat) (obj : logger), w.heap[t]? = some obj →
        (acquire w calls).2.heap[t]? = some obj) ∧
      (∀ k t, mapGet k (entries w.p.loggers) = some t →
        mapGet k (entries (acquire w calls).2.p.loggers) = some t) ∧
      ∀ (i : Nat) (name : String) (s : Slice), calls[i]? = some (.Logger name s) →
        ∃ t, (acquire w calls).1[i]? = some (some (.placeholder t)) ∧
          mapGet (keyOf name (readSlice (before w calls i).arrays s))
            (entries (acquire w calls).2.p.loggers) = some t ∧
          (t < w.heap.length ∨
            ∃ (j : Nat) (name' : String) (s' : Slice), j ≤ i ∧
              calls[j]? = some (.Logger name' s') ∧
              (acquire w calls).1[j]? = some (some (.placeholder t)) ∧
              (acquire w calls).2.heap[t]? = some ⟨name', s', w.addr, AtomicValue.zero⟩)
  | [], w, hw => by
    refine ⟨hw, rfl, fun _ _ h => h, fun _ _ h => h, ?_⟩
    intro i name s h
    simp at h
  | .write a k x :: rest, w, hw => by
    obtain ⟨g1, g2, g3, g4, g5⟩ := acquire_spec rest (preInstall_write hw a k x)
    have hacq : acquire w (.write a k x :: rest) =
        (none :: (acquire { w with arrays := writeArray w.arrays a k x } rest).1,
          (acquire { w with arrays := writeArray w.arrays a k x } rest).2) := rfl
    rw [hacq]
    refine ⟨g1, g2, g3, g4, ?_⟩
    intro i name s hc
    cases i with
    | zero =>
      simp only [List.getElem?_cons_zero, Option.some.injEq] at hc
      cases hc
    | succ i =>
      simp only [List.getElem?_cons_succ] at hc
      obtain ⟨t, e1, e2, e3⟩ := g5 i name s hc
      refine ⟨t, ?_, ?_, ?_⟩
      · simp only [List.getElem?_cons_succ, e1]
      · rw [before_write]
        exact e2
      · rcases e3 with e3 | ⟨j, name', s', hj, hc', e4, e5⟩
        · exact Or.inl e3
        · refine Or.inr ⟨j + 1, name', s', Nat.succ_le_succ hj, ?_, ?_, e5⟩
          · simp only [List.getElem?_cons_succ, hc']
          · simp only [List.getElem?_cons_succ, e4]
  | .Logger name opts :: rest, w, hw => by
    obtain ⟨h1, h2, h3, h4, t0, h5, h6, h7⟩ := Logger_preInstall hw name opts
    obtain ⟨g1, g2, g3, g4, g5⟩ := acquire_spec rest h1
    have hacq : acquire w (.Logger name opts :: rest) =
        (some (loggerProvider.Logger w name opts).1 ::
          (acquire (loggerProvider.Logger w name opts).2 rest).1,
          (acquire (loggerProvider.Logger w name opts).2 rest).2) := rfl
    rw [hacq]
    refine ⟨g1, g2.trans h2, fun t obj h => g3 _ _ (h3 _ _ h),
      fun k t h => g4 _ _ (h4 _ _ h), ?_⟩
    intro i name1 s1 hc
    cases i with
    | zero =>
      simp only [List.getElem?_cons_zero, Option.some.injEq, Call.Logger.injEq] at hc
      obtain ⟨rfl, rfl⟩ := hc
      refine ⟨t0, ?_, ?_, ?_⟩
      · simp only [List.getElem?_cons_zero, h5]
      · rw [before_zero]
        exact g4 _ _ h6
      · rcases h7 with h7 | h7
        · exact Or.inl h7
        · refine Or.inr ⟨0, name, opts, le_refl _, List.getElem?_cons_zero, ?_, g3 _ _ h7⟩
          simp only [List.getElem?_cons_zero, h5]
    | succ i =>
      simp only [List.getElem?_cons_succ] at hc
      obtain ⟨t, e1, e2, e3⟩ := g5 i name1 s1 hc
      refine ⟨t, ?_, ?_, ?_⟩
      · simp only [List.getElem?_cons_succ, e1]
      · rw [before_Logger]
        exact e2
      · rcases e3 with e3 | ⟨j, name', s', hj, hc', e4, e5⟩
        · rcases Logger_heap_new hw name opts t e3 with e6 | ⟨e6, e7⟩
          · exact Or.inl e6
          · refine Or.inr ⟨0, name, opts, Nat.zero_le _, List.getElem?_cons_zero, ?_,
              g3 _ _ e7⟩
            simp only [List.getElem?_cons_zero, e6]
        · refine Or.inr ⟨j + 1, name', s', Nat.succ_le_succ hj, ?_, ?_, ?_⟩
          · simp only [List.getElem?_cons_succ, hc']
          · simp only [List.getElem?_cons_succ, e4]
          · rw [← h2]
            exact e5

/-- C2: on a fresh registry, before any backend is installed and whatever
callers write to their option slices in between, every `Logger` call returns a
placeholder handle, and two calls return the same handle instance exactly when
their identity keys (name, instrumentation version of the options as the slice
shows them at the call) are equal. -/
theorem C2_same_handle_iff_same_key (addr : Nat) (arrays : List (List LoggerOption))
    (calls : List Call) (i j : Nat) (ni nj : String) (si sj : Slice)
    (hi : calls[i]? = some (.Logger ni si)) (hj : calls[j]? = some (.Logger nj sj)) :
    (∃ t, (acquire (init addr arrays) calls).1[i]? = some (some (.placeholder t))) ∧
    ((acquire (init addr arrays) calls).1[i]? = (acquire (init addr arrays) calls).1[j]? ↔
      keyOf ni (readSlice (before (init addr arrays) calls i).arrays si)
        = keyOf nj (readSlice (before (init addr arrays) calls j).arrays sj)) := by
  obtain ⟨g1, -, -, -, g5⟩ := acquire_spec calls (preInstall_init addr arrays)
  obtain ⟨ti, a1, a2, -⟩ := g5 i ni si hi
  obtain ⟨tj, b1, b2, -⟩ := g5 j nj sj hj
  refine ⟨⟨ti, a1⟩, ?_⟩
  rw [a1, b1]
  constructor
  · intro h
    have e : ti = tj := by
      simpa using h
    subst e
    exact vals_injective g1.vals (mapGet_mem a2) (mapGet_mem b2)
  · intro h
    rw [h] at a2
    rw [a2] at b2
    cases b2
    rfl

/-- Witness of C2: two calls with the key ("svc-a", "1.0") through different
slices, a write to the second slice in between. -/
theorem C2_same_handle_iff_same_key_witness :
    (∃ t, (acquire
        (init 0 [[.WithInstrumentationVersion "1.0"],
          [.WithSchemaURL "u", .WithInstrumentationVersion "1.0"]])
        [.Logger "svc-a" ⟨0, 0, 1⟩, .write 1 0 (.WithSchemaURL "w"),
          .Logger "svc-a" ⟨1, 0, 2⟩]).1[0]? = some (some (.placeholder t))) ∧
    ((acquire
        (init 0 [[.WithInstrumentationVersion "1.0"],
          [.WithSchemaURL "u", .WithInstrumentationVersion "1.0"]])
        [.Logger "svc-a" ⟨0, 0, 1⟩, .write 1 0 (.WithSchemaURL "w"),
          .Logger "svc-a" ⟨1, 0, 2⟩]).1[0]?
      = (acquire
        (init 0 [[.WithInstrumentationVersion "1.0"],
          [.WithSchemaURL "u", .WithInstrumentationVersion "1.0"]])
        [.Logger "svc-a" ⟨0, 0, 1⟩, .write 1 0 (.WithSchemaURL "w"),
          .Logger "svc-a" ⟨1, 0, 2⟩]).1[2]? ↔
      keyOf "svc-a" (readSlice (before
          (init 0 [[.WithInstrumentationVersion "1.0"],
            [.WithSchemaURL "u", .WithInstrumentationVersion "1.0"]])
          [.Logger "svc-a" ⟨0, 0, 1⟩, .write 1 0 (.WithSchemaURL "w"),
            .Logger "svc-a" ⟨1, 0, 2⟩] 0).arrays ⟨0, 0, 1⟩)
        = keyOf "svc-a" (readSlice (before
          (init 0 [[.WithInstrumentationVersion "1.0"],
            [.WithSchemaURL "u", .WithInstrumentationVersion "1.0"]])
          [.Logger "svc-a" ⟨0, 0, 1⟩, .write 1 0 (.WithSchemaURL "w"),
            .Logger "svc-a" ⟨1, 0, 2⟩] 2).arrays ⟨1, 0, 2⟩)) :=
  C2_same_handle_iff_same_key 0
    [[.WithInstrumentationVersion "1.0"],
      [.WithSchemaURL "u", .WithInstrumentationVersion "1.0"]]
    [.Logger "svc-a" ⟨0, 0, 1⟩, .write 1 0 (.WithSchemaURL "w"), .Logger "svc-a" ⟨1, 0, 2⟩]
    0 2 "svc-a" "svc-a" ⟨0, 0, 1⟩ ⟨1, 0, 2⟩ rfl rfl

/-! ## Installing a backend -/

theorem logger_setDelegate_nil (w : World) (t : Nat) :
    logger.setDelegate w t none = .panicked nilDeref w := by
  unfold logger.setDelegate
  cases w.heap[t]? <;> rfl

theorem logger_setDelegate_dangling {w : World} {t : Nat} (b : LoggerProvider)
    (h : w.heap[t]? = none) :
    logger.setDelegate w t (some b) = .panicked nilDeref w := by
  unfold logger.setDelegate
  rw [h]

theorem logger_setDelegate_ok {w : World} {t : Nat} {obj : logger} (b : LoggerProvider)
    {d : AtomicValue} (h : w.heap[t]? = some obj)
    (hs : obj.delegate.Store (b.Logger obj.name (readSlice w.arrays obj.opts)) = .ok d) :
    logger.setDelegate w t (some b) =
      .returned ()
        { w with
          trace := w.trace ++ [.providerLogger b.id obj.name (readSlice w.arrays obj.opts)]
          heap := w.heap.set t { obj with delegate := d } } := by
  unfold logger.setDelegate
  rw [h]
  simp only [hs]

theorem logger_setDelegate_error {w : World} {t : Nat} {obj : logger} (b : LoggerProvider)
    {msg : String} (h : w.heap[t]? = some obj)
    (hs : obj.delegate.Store (b.Logger obj.name (readSlice w.arrays obj.opts)) = .error msg) :
    logger.setDelegate w t (some b) =
      .panicked msg { w with trace := w.trace ++ [.providerLogger b.id obj.name (readSlice w.arrays obj.opts)] } := by
  unfold logger.setDelegate
  rw [h]
  simp only [hs]

theorem rangeSetDelegate_nil_provider (l : List (il × Nat)) (w : World) :
    (rangeSetDelegate none l w).world = w := by
  cases l with
  | nil => rfl
  | cons e rest =>
    obtain ⟨k, t⟩ := e
    unfold rangeSetDelegate
    rw [logger_setDelegate_nil]
    rfl

theorem rangeSetDelegate_effect (b : LoggerProvider) :
    ∀ (l : List (il × Nat)) (w : World), (l.map Prod.snd).Nodup →
      (rangeSetDelegate (some b) l w).world.p = w.p ∧
      (rangeSetDelegate (some b) l w).world.addr = w.addr ∧
      (∀ (t : Nat) (obj : logger), w.heap[t]? = some obj →
        (t ∉ l.map Prod.snd →
          (rangeSetDelegate (some b) l w).world.heap[t]? = some obj) ∧
        ((rangeSetDelegate (some b) l w).world.heap[t]? = some obj ∨
          ∃ d, obj.delegate.Store (b.Logger obj.name (readSlice w.arrays obj.opts)) = .ok d ∧
            (rangeSetDelegate (some b) l w).world.heap[t]?
              = some { obj with delegate := d }) ∧
        ((rangeSetDelegate (some b) l w).completed = true → t ∈ l.map Prod.snd →
          ∃ d, obj.delegate.Store (b.Logger obj.name (readSlice w.arrays obj.opts)) = .ok d ∧
            (rangeSetDelegate (some b) l w).world.heap[t]?
              = some { obj with delegate := d })) ∧
      (∀ (t : Nat), w.heap[t]? = none →
        (rangeSetDelegate (some b) l w).world.heap[t]? = none) ∧
      (∀ e ∈ (rangeSetDelegate (some b) l w).world.trace,
        e ∈ w.trace ∨
          ∃ (k : il) (t : Nat) (obj : logger), (k, t) ∈ l ∧ w.heap[t]? = some obj ∧
            e = .providerLogger b.id obj.name (readSlice w.arrays obj.opts))
  | [], w, _ => by
    refine ⟨rfl, rfl, ?_, fun _ h => h, fun e he => Or.inl he⟩
    intro t obj h
    refine ⟨fun _ => h, Or.inl h, ?_⟩
    intro _ hm
    simp at hm
  | (k0, t0) :: rest, w, hnd => by
    rw [List.map_cons, List.nodup_cons] at hnd
    obtain ⟨hnot, hrest⟩ := hnd
    cases h0 : w.heap[t0]? with
    | none =>
      have e : rangeSetDelegate (some b) ((k0, t0) :: rest) w = .panicked nilDeref w := by
        unfold rangeSetDelegate
        rw [logger_setDelegate_dangling b h0]
      rw [e]
      refine ⟨rfl, rfl, ?_, fun _ h => h, fun e he => Or.inl he⟩
      intro t obj h
      refine ⟨fun _ => h, Or.inl h, ?_⟩
      intro hc
      simp [Outcome.completed] at hc
    | some obj0 =>
      cases hs : obj0.delegate.Store (b.Logger obj0.name (readSlice w.arrays obj0.opts)) with
      | error msg =>
        have e : rangeSetDelegate (some b) ((k0, t0) :: rest) w =
            .panicked msg
              { w with trace := w.trace ++ [.providerLogger b.id obj0.name (readSlice w.arrays obj0.opts)] } := by
          unfold rangeSetDelegate
          rw [logger_setDelegate_error b h0 hs]
        rw [e]
        refine ⟨rfl, rfl, ?_, fun _ h => h, ?_⟩
        · intro t obj h
          refine ⟨fun _ => h, Or.inl h, ?_⟩
          intro hc
          simp [Outcome.completed] at hc
        · intro ev hev
          simp only [Outcome.world, List.mem_append, List.mem_singleton] at hev
          rcases hev with hev | hev
          · exact Or.inl hev
          · exact Or.inr ⟨k0, t0, obj0, List.mem_cons_self _ _, h0, hev⟩
      | ok d =>
        have e : rangeSetDelegate (some b) ((k0, t0) :: rest) w =
            rangeSetDelegate (some b) rest
              { w with
                trace := w.trace ++ [.providerLogger b.id obj0.name (readSlice w.arrays obj0.opts)]
                heap := w.heap.set t0 { obj0 with delegate := d } } := by
          conv => lhs; unfold rangeSetDelegate
          rw [logger_setDelegate_ok b h0 hs]
        rw [e]
        obtain ⟨i1, i2, i3, i4, i5⟩ := rangeSetDelegate_effect b rest
          { w with
            trace := w.trace ++ [.providerLogger b.id obj0.name (readSlice w.arrays obj0.opts)]
            heap := w.heap.set t0 { obj0 with delegate := d } } hrest
        have hlt : t0 < w.heap.length := (List.getElem?_eq_some_iff.mp h0).1
        refine ⟨i1, i2, ?_, ?_, ?_⟩
        · intro t obj h
          by_cases ht : t = t0
          · subst ht
            rw [h0] at h
            cases h
            have hset : (w.heap.set t { obj0 with delegate := d })[t]?
                = some { obj0 with delegate := d } := List.getElem?_set_self hlt
            have hfin := (i3 t _ hset).1 hnot
            refine ⟨?_, Or.inr ⟨d, hs, hfin⟩, fun _ _ => ⟨d, hs, hfin⟩⟩
            intro hn
            exact absurd (List.mem_cons_self _ _) hn
          · have hset : (w.heap.set t0 { obj0 with delegate := d })[t]? = some obj := by
              rw [List.getElem?_set_ne (Ne.symm ht)]
              exact h
            obtain ⟨j1, j2, j3⟩ := i3 t obj hset
            refine ⟨?_, j2, ?_⟩
            · intro hn
              exact j1 (fun hm => hn (List.mem_cons_of_mem _ hm))
            · intro hc hm
              rcases List.mem_cons.mp hm with hm | hm
              · exact absurd hm ht
              · exact j3 hc hm
        · intro t h
          apply i4
          by_cases ht : t = t0
          · subst ht
            rw [h0] at h
            cases h
          · show (w.heap.set t0 { obj0 with delegate := d })[t]? = none
            rw [List.getElem?_set_ne (Ne.symm ht)]
            exact h
        · intro ev hev
          rcases i5 ev hev with h | ⟨k, t, obj, hkt, hobj, hev⟩
          · simp only [List.mem_append, List.mem_singleton] at h
            rcases h with h | h
            · exact Or.inl h
            · exact Or.inr ⟨k0, t0, obj0, List.mem_cons_self _ _, h0, h⟩
          · have ht : t ≠ t0 := by
              intro e
              subst e
              exact hnot (List.mem_map.mpr ⟨(k, t), hkt, rfl⟩)
            have hobj' : w.heap[t]? = some obj := by
              rw [← List.getElem?_set_ne (Ne.symm ht)]
              exact hobj
            exact Or.inr ⟨k, t, obj, List.mem_cons_of_mem _ hkt, hobj', hev⟩

theorem rangeSetDelegate_registry (provider : Option LoggerProvider) :
    ∀ (l : List (il × Nat)) (w : World),
      (rangeSetDelegate provider l w).world.p = w.p ∧
      (rangeSetDelegate provider l w).world.addr = w.addr ∧
      (rangeSetDelegate provider l w).world.heap.length = w.heap.length ∧
      (rangeSetDelegate provider l w).world.arrays = w.arrays
  | [], _ => ⟨rfl, rfl, rfl, rfl⟩
  | (k0, t0) :: rest, w => by
    cases provider with
    | none =>
      rw [rangeSetDelegate_nil_provider]
      exact ⟨rfl, rfl, rfl, rfl⟩
    | some b =>
      cases h0 : w.heap[t0]? with
      | none =>
        unfold rangeSetDelegate
        rw [logger_setDelegate_dangling b h0]
        exact ⟨rfl, rfl, rfl, rfl⟩
      | some obj0 =>
        cases hs : obj0.delegate.Store (b.Logger obj0.name (readSlice w.arrays obj0.opts)) with
        | error msg =>
          unfold rangeSetDelegate
          rw [logger_setDelegate_error b h0 hs]
          exact ⟨rfl, rfl, rfl, rfl⟩
        | ok d =>
          have e : rangeSetDelegate (some b) ((k0, t0) :: rest) w =
              rangeSetDelegate (some b) rest
                { w with
                  trace := w.trace ++ [.providerLogger b.id obj0.name (readSlice w.arrays obj0.opts)]
                  heap := w.heap.set t0 { obj0 with delegate := d } } := by
            conv => lhs; unfold rangeSetDelegate
            rw [logger_setDelegate_ok b h0 hs]
          rw [e]
          obtain ⟨i1, i2, i3, i4⟩ := rangeSetDelegate_registry (some b) rest
            { w with
              trace := w.trace ++ [.providerLogger b.id obj0.name (readSlice w.arrays obj0.opts)]
              heap := w.heap.set t0 { obj0 with delegate := d } }
          refine ⟨i1, i2, ?_, i4⟩
          rw [i3]
          exact List.length_set _ _ _

theorem setDelegate_unfold (w : World) (provider : Option LoggerProvider) :
    loggerProvider.setDelegate w provider =
      if (entries w.p.loggers).length = 0 then
        .returned () { w with p := { w.p with delegate := provider } }
      else
        match rangeSetDelegate provider (entries w.p.loggers)
            { w with p := { w.p with delegate := provider } } with
        | .panicked msg w2 => .panicked msg w2
        | .returned _ w2 => .returned () { w2 with p := { w2.p with loggers := none } } :=
  rfl

theorem setDelegate_registry (w : World) (provider : Option LoggerProvider) :
    (loggerProvider.setDelegate w provider).world.p.delegate = provider ∧
    (loggerProvider.setDelegate w provider).world.addr = w.addr ∧
    ((loggerProvider.setDelegate w provider).completed = true →
      entries (loggerProvider.setDelegate w provider).world.p.loggers = []) := by
  rw [setDelegate_unfold]
  by_cases hlen : (entries w.p.loggers).length = 0
  · rw [if_pos hlen]
    exact ⟨rfl, rfl, fun _ => List.length_eq_zero.mp hlen⟩
  · rw [if_neg hlen]
    obtain ⟨i1, i2, -, -⟩ := rangeSetDelegate_registry provider (entries w.p.loggers)
      { w with p := { w.p with delegate := provider } }
    cases hloop : rangeSetDelegate provider (entries w.p.loggers)
        { w with p := { w.p with delegate := provider } } with
    | panicked msg w2 =>
      rw [hloop] at i1 i2
      simp only [Outcome.world] at i1 i2 ⊢
      refine ⟨?_, i2, ?_⟩
      · rw [i1]
      · intro hc
        simp [Outcome.completed] at hc
    | returned u w2 =>
      rw [hloop] at i1 i2
      simp only [Outcome.world] at i1 i2 ⊢
      refine ⟨?_, i2, fun _ => rfl⟩
      rw [i1]

theorem setDelegate_completed {w : World} (b : LoggerProvider)
    (hnd : ((entries w.p.loggers).map Prod.snd).Nodup)
    (hdone : (loggerProvider.setDelegate w (some b)).completed = true) :
    (∀ (t : Nat) (obj : logger), w.heap[t]? = some obj →
      (t ∉ (entries w.p.loggers).map Prod.snd →
        (loggerProvider.setDelegate w (some b)).world.heap[t]? = some obj) ∧
      (t ∈ (entries w.p.loggers).map Prod.snd →
        ∃ d, obj.delegate.Store (b.Logger obj.name (readSlice w.arrays obj.opts)) = .ok d ∧
          (loggerProvider.setDelegate w (some b)).world.heap[t]?
            = some { obj with delegate := d })) ∧
    (∀ e ∈ (loggerProvider.setDelegate w (some b)).world.trace,
      e ∈ w.trace ∨
        ∃ (k : il) (t : Nat) (obj : logger), (k, t) ∈ entries w.p.loggers ∧
          w.heap[t]? = some obj ∧ e = .providerLogger b.id obj.name (readSlice w.arrays obj.opts)) := by
  rw [setDelegate_unfold] at hdone ⊢
  by_cases hlen : (entries w.p.loggers).length = 0
  · rw [if_pos hlen]
    have hnil := List.length_eq_zero.mp hlen
    refine ⟨?_, fun e he => Or.inl he⟩
    intro t obj h
    refine ⟨fun _ => h, ?_⟩
    intro hm
    rw [hnil] at hm
    simp at hm
  · rw [if_neg hlen] at hdone ⊢
    obtain ⟨-, -, i3, -, i5⟩ := rangeSetDelegate_effect b (entries w.p.loggers)
      { w with p := { w.p with delegate := some b } } hnd
    cases hloop : rangeSetDelegate (some b) (entries w.p.loggers)
        { w with p := { w.p with delegate := some b } } with
    | panicked msg w2 =>
      rw [hloop] at hdone
      simp [Outcome.completed] at hdone
    | returned u w2 =>
      rw [hloop] at i3 i5
      simp only [Outcome.world, Outcome.completed] at i3 i5 ⊢
      refine ⟨?_, i5⟩
      intro t obj h
      obtain ⟨j1, -, j3⟩ := i3 t obj h
      exact ⟨j1, fun hm => j3 trivial hm⟩

theorem store_zero {x : Option LoggerValue} {d : AtomicValue}
    (h : AtomicValue.zero.Store x = .ok d) : ∃ v, x = some v ∧ d = ⟨some v, 1⟩ := by
  cases x with
  | none => simp [AtomicValue.Store] at h
  | some v =>
    refine ⟨v, rfl, ?_⟩
    simp only [AtomicValue.Store, AtomicValue.zero, Nat.zero_add, Except.ok.injEq] at h
    exact h.symm

theorem setDelegate_arrays (w : World) (provider : Option LoggerProvider) :
    (loggerProvider.setDelegate w provider).world.arrays = w.arrays := by
  rw [setDelegate_unfold]
  by_cases hlen : (entries w.p.loggers).length = 0
  · rw [if_pos hlen]
    rfl
  · rw [if_neg hlen]
    obtain ⟨-, -, -, i4⟩ := rangeSetDelegate_registry provider (entries w.p.loggers)
      { w with p := { w.p with delegate := provider } }
    cases hloop : rangeSetDelegate provider (entries w.p.loggers)
        { w with p := { w.p with delegate := provider } } with
    | panicked msg w2 =>
      rw [hloop] at i4
      exact i4
    | returned u w2 =>
      rw [hloop] at i4
      exact i4

theorem created_by_first {addr : Nat} {arrays : List (List LoggerOption)}
    {calls : List Call} {i : Nat} {name : String} {s : Slice} {h : Nat}
    (hcall : calls[i]? = some (.Logger name s))
    (hret : (acquire (init addr arrays) calls).1[i]? = some (some (.placeholder h)))
    (hfirst : ∀ j, j < i →
      (acquire (init addr arrays) calls).1[j]? ≠ some (some (.placeholder h))) :
    (acquire (init addr arrays) calls).2.heap[h]?
      = some ⟨name, s, addr, AtomicValue.zero⟩ ∧
    h ∈ (entries (acquire (init addr arrays) calls).2.p.loggers).map Prod.snd ∧
    mapGet (keyOf name (readSlice (before (init addr arrays) calls i).arrays s))
      (entries (acquire (init addr arrays) calls).2.p.loggers) = some h := by
  obtain ⟨-, -, -, -, g5⟩ := acquire_spec calls (preInstall_init addr arrays)
  obtain ⟨t, a1, a2, a3⟩ := g5 i name s hcall
  rw [hret] at a1
  have e : h = t := by
    simpa using a1
  subst e
  refine ⟨?_, List.mem_map.mpr ⟨_, mapGet_mem a2, rfl⟩, a2⟩
  rcases a3 with a3 | ⟨j, name', s', hj, hc', a4, a5⟩
  · simp [init] at a3
  · have hji : j = i := by
      rcases Nat.lt_or_ge j i with hlt | hge
      · exact absurd a4 (hfirst j hlt)
      · omega
    subst hji
    rw [hcall] at hc'
    cases hc'
    exact a5

theorem bound_after_install {addr : Nat} {arrays : List (List LoggerOption)}
    {calls : List Call} {i : Nat} {name : String} {s : Slice} {h : Nat}
    (hcall : calls[i]? = some (.Logger name s))
    (hret : (acquire (init addr arrays) calls).1[i]? = some (some (.placeholder h)))
    (hfirst : ∀ j, j < i →
      (acquire (init addr arrays) calls).1[j]? ≠ some (some (.placeholder h)))
    (b : LoggerProvider)
    (hdone : (loggerProvider.setDelegate (acquire (init addr arrays) calls).2
      (some b)).completed = true) :
    ∃ v, b.Logger name (readSlice (acquire (init addr arrays) calls).2.arrays s) = some v ∧
      (loggerProvider.setDelegate (acquire (init addr arrays) calls).2
        (some b)).world.heap[h]? = some ⟨name, s, addr, ⟨some v, 1⟩⟩ := by
  obtain ⟨g1, -, -, -, -⟩ := acquire_spec calls (preInstall_init addr arrays)
  obtain ⟨hobj, hmem, -⟩ := created_by_first hcall hret hfirst
  obtain ⟨d, hs, hd⟩ := ((setDelegate_completed b g1.vals hdone).1 h _ hobj).2 hmem
  obtain ⟨v, hv, rfl⟩ := store_zero hs
  exact ⟨v, hv, hd⟩

theorem Emit_bound {w : World} {t : Nat} {obj : logger} {v : LoggerValue}
    (hobj : w.heap[t]? = some obj) (hv : obj.delegate.Load = some v) (r : LogRecord) :
    logger.Emit w t r = .returned () { w with trace := w.trace ++ [.loggerEmit v r] } := by
  unfold logger.Emit
  rw [hobj]
  simp only [hv]

theorem readSlice_writeArray_ne (arrays : List (List LoggerOption)) (a i : Nat)
    (x : LoggerOption) (s : Slice) (hne : a ≠ s.array) :
    readSlice (writeArray arrays a i x) s = readSlice arrays s := by
  unfold readSlice writeArray
  cases arrays[a]? with
  | none => rfl
  | some arr =>
    simp only
    rw [List.getElem?_set_ne hne]

theorem acquire_readSlice (s : Slice) :
    ∀ (calls : List Call) (w : World),
      (∀ (a k : Nat) (x : LoggerOption), Call.write a k x ∈ calls → a ≠ s.array) →
      readSlice (acquire w calls).2.arrays s = readSlice w.arrays s
  | [], _, _ => rfl
  | .Logger name opts :: rest, w, h => by
    have ih := acquire_readSlice s rest (loggerProvider.Logger w name opts).2
      (fun a k x hm => h a k x (List.mem_cons_of_mem _ hm))
    rw [Logger_arrays] at ih
    exact ih
  | .write a k x :: rest, w, h => by
    have ih := acquire_readSlice s rest { w with arrays := writeArray w.arrays a k x }
      (fun a' k' x' hm => h a' k' x' (List.mem_cons_of_mem _ hm))
    have hne := h a k x (List.mem_cons_self _ _)
    exact ih.trans (readSlice_writeArray_ne w.arrays a k x s hne)

theorem acquire_append (calls1 calls2 : List Call) :
    ∀ w : World, (acquire w (calls1 ++ calls2)).2 = (acquire (acquire w calls1).2 calls2).2 := by
  induction calls1 with
  | nil => intro w; rfl
  | cons c rest ih =>
    intro w
    cases c with
    | Logger name opts => exact ih (loggerProvider.Logger w name opts).2
    | write a k x => exact ih { w with arrays := writeArray w.arrays a k x }

theorem acquire_from_before (w : World) (calls : List Call) (i : Nat) :
    (acquire w calls).2 = (acquire (before w calls i) (calls.drop i)).2 := by
  have h := acquire_append (calls.take i) (calls.drop i) w
  rw [List.take_append_drop] at h
  exact h

/-- C1, as the code has it: a handle `h` that `Logger(name, opts...)` created
on a registry without backend (the call is the first to return `h`) keeps the
name and the slice `opts` itself.  Once `setDelegate(B)` has returned for a
non-nil backend `B`, its delegate slot holds exactly the handle that
`B.Logger(name, opts...)` gives for the elements the slice shows at the
installation; these are the elements it showed at the `Logger` call when no
write went to its backing array in between.  `h.Emit(r)` then returns after
one call, with `r` unchanged, of that backend handle's `Emit`, leaving
everything else as it was. -/
theorem C1_bound_handle_forwards_present_options (addr : Nat)
    (arrays : List (List LoggerOption)) (calls : List Call) (i : Nat) (name : String)
    (opts : Slice) (h : Nat)
    (hcall : calls[i]? = some (.Logger name opts))
    (hret : (acquire (init addr arrays) calls).1[i]? = some (some (.placeholder h)))
    (hfirst : ∀ j, j < i →
      (acquire (init addr arrays) calls).1[j]? ≠ some (some (.placeholder h)))
    (b : LoggerProvider)
    (hdone : (loggerProvider.setDelegate (acquire (init addr arrays) calls).2
      (some b)).completed = true) :
    (∃ (v : LoggerValue) (obj : logger),
      b.Logger name (readSlice (acquire (init addr arrays) calls).2.arrays opts) = some v ∧
      (loggerProvider.setDelegate (acquire (init addr arrays) calls).2
        (some b)).world.heap[h]? = some obj ∧
      obj.name = name ∧ obj.opts = opts ∧ obj.delegate.Load = some v ∧
      ∀ r : LogRecord,
        logger.Emit
            (loggerProvider.setDelegate (acquire (init addr arrays) calls).2 (some b)).world
            h r =
          .returned ()
            { (loggerProvider.setDelegate (acquire (init addr arrays) calls).2
                (some b)).world with
              trace :=
                (loggerProvider.setDelegate (acquire (init addr arrays) calls).2
                  (some b)).world.trace ++ [.loggerEmit v r] }) ∧
    ((∀ (a k : Nat) (x : LoggerOption), Call.write a k x ∈ calls.drop i → a ≠ opts.array) →
      readSlice (acquire (init addr arrays) calls).2.arrays opts
        = readSlice (before (init addr arrays) calls i).arrays opts) := by
  obtain ⟨v, hv, hobj⟩ := bound_after_install hcall hret hfirst b hdone
  refine ⟨⟨v, _, hv, hobj, rfl, rfl, rfl, fun r => Emit_bound hobj rfl r⟩, ?_⟩
  intro hw
  rw [acquire_from_before (init addr arrays) calls i]
  exact acquire_readSlice opts (calls.drop i) _ hw

/-- Witness of C1: the scenario of the spec, handle "svc-a" at version "1.0"
acquired first, a write to another backing array, then the backend installed. -/
theorem C1_bound_handle_forwards_present_options_witness :
    (∃ (v : LoggerValue) (obj : logger),
      sampleBackend.Logger "svc-a"
        (readSlice (acquire (init 0 [[.WithInstrumentationVersion "1.0"], [.WithSchemaURL "u"]])
          [.Logger "svc-a" ⟨0, 0, 1⟩, .write 1 0 (.WithSchemaURL "w")]).2.arrays ⟨0, 0, 1⟩)
        = some v ∧
      (loggerProvider.setDelegate
        (acquire (init 0 [[.WithInstrumentationVersion "1.0"], [.WithSchemaURL "u"]])
          [.Logger "svc-a" ⟨0, 0, 1⟩, .write 1 0 (.WithSchemaURL "w")]).2
        (some sampleBackend)).world.heap[0]? = some obj ∧
      obj.name = "svc-a" ∧ obj.opts = ⟨0, 0, 1⟩ ∧ obj.delegate.Load = some v ∧
      ∀ r : LogRecord,
        logger.Emit
            (loggerProvider.setDelegate
              (acquire (init 0 [[.WithInstrumentationVersion "1.0"], [.WithSchemaURL "u"]])
                [.Logger "svc-a" ⟨0, 0, 1⟩, .write 1 0 (.WithSchemaURL "w")]).2
              (some sampleBackend)).world
            0 r =
          .returned ()
            { (loggerProvider.setDelegate
                (acquire (init 0 [[.WithInstrumentationVersion "1.0"], [.WithSchemaURL "u"]])
                  [.Logger "svc-a" ⟨0, 0, 1⟩, .write 1 0 (.WithSchemaURL "w")]).2
                (some sampleBackend)).world with
              trace :=
                (loggerProvider.setDelegate
                  (acquire (init 0 [[.WithInstrumentationVersion "1.0"], [.WithSchemaURL "u"]])
                    [.Logger "svc-a" ⟨0, 0, 1⟩, .write 1 0 (.WithSchemaURL "w")]).2
                  (some sampleBackend)).world.trace ++ [.loggerEmit v r] }) ∧
    readSlice (acquire (init 0 [[.WithInstrumentationVersion "1.0"], [.WithSchemaURL "u"]])
        [.Logger "svc-a" ⟨0, 0, 1⟩, .write 1 0 (.WithSchemaURL "w")]).2.arrays ⟨0, 0, 1⟩
      = readSlice (before (init 0 [[.WithInstrumentationVersion "1.0"], [.WithSchemaURL "u"]])
        [.Logger "svc-a" ⟨0, 0, 1⟩, .write 1 0 (.WithSchemaURL "w")] 0).arrays ⟨0, 0, 1⟩ :=
  have hall := C1_bound_handle_forwards_present_options 0
    [[.WithInstrumentationVersion "1.0"], [.WithSchemaURL "u"]]
    [.Logger "svc-a" ⟨0, 0, 1⟩, .write 1 0 (.WithSchemaURL "w")] 0 "svc-a" ⟨0, 0, 1⟩ 0 rfl rfl
    (fun j hj => absurd hj (Nat.not_lt_zero j)) sampleBackend rfl
  ⟨hall.1, hall.2 (by
    intro a k x hmem
    have ha : a = 1 := by
      simp at hmem
      exact hmem.1
    show a ≠ 0
    omega)⟩

/-- C1 fails as stated: "svc-a" is acquired with a slice that shows version
"1.0", the caller then overwrites that element with a schema URL, and the
backend is installed.  The call was made for the options [version "1.0"], the
installation returns, and the slot of the handle holds what the backend gives
for [schema URL "changed"], which is another handle than the one it gives for
the original options. -/
theorem C1_slot_follows_overwritten_slice :
    readSlice (before (init 0 [[.WithInstrumentationVersion "1.0"]])
        [.Logger "svc-a" ⟨0, 0, 1⟩, .write 0 0 (.WithSchemaURL "changed")] 0).arrays ⟨0, 0, 1⟩
      = [.WithInstrumentationVersion "1.0"] ∧
    (acquire (init 0 [[.WithInstrumentationVersion "1.0"]])
        [.Logger "svc-a" ⟨0, 0, 1⟩, .write 0 0 (.WithSchemaURL "changed")]).1[0]?
      = some (some (.placeholder 0)) ∧
    (loggerProvider.setDelegate
      (acquire (init 0 [[.WithInstrumentationVersion "1.0"]])
        [.Logger "svc-a" ⟨0, 0, 1⟩, .write 0 0 (.WithSchemaURL "changed")]).2
      (some sampleBackend)).completed = true ∧
    (loggerProvider.setDelegate
      (acquire (init 0 [[.WithInstrumentationVersion "1.0"]])
        [.Logger "svc-a" ⟨0, 0, 1⟩, .write 0 0 (.WithSchemaURL "changed")]).2
      (some sampleBackend)).world.heap[0]?
      = some ⟨"svc-a", ⟨0, 0, 1⟩, 0,
          ⟨sampleBackend.Logger "svc-a" [.WithSchemaURL "changed"], 1⟩⟩ ∧
    (loggerProvider.setDelegate
      (acquire (init 0 [[.WithInstrumentationVersion "1.0"]])
        [.Logger "svc-a" ⟨0, 0, 1⟩, .write 0 0 (.WithSchemaURL "changed")]).2
      (some sampleBackend)).world.trace
      = [.providerLogger 1 "svc-a" [.WithSchemaURL "changed"]] ∧
    sampleBackend.Logger "svc-a" [.WithSchemaURL "changed"]
      ≠ sampleBackend.Logger "svc-a" [.WithInstrumentationVersion "1.0"] := by
  refine ⟨rfl, rfl, rfl, ?_, ?_, ?_⟩
  · decide
  · decide
  · decide

/-- C3: `Emit` on a placeholder handle whose delegate slot is empty returns
normally and leaves the whole state as it was: no call to any backend is
recorded, and the handle and the registry are unchanged. -/
theorem C3_emit_unbound_discards (w : World) (t : Nat) (obj : logger) (r : LogRecord)
    (hobj : w.heap[t]? = some obj) (hempty : obj.delegate.Load = none) :
    logger.Emit w t r = .returned () w := by
  unfold logger.Emit
  rw [hobj]
  simp only [hempty]

/-- Witness of C3: the handle "svc-a" before any installation. -/
theorem C3_emit_unbound_discards_witness :
    logger.Emit
        (acquire (init 0 [[.WithInstrumentationVersion "1.0"]]) [.Logger "svc-a" ⟨0, 0, 1⟩]).2
        0 ⟨"R1", 9⟩ =
      .returned ()
        (acquire (init 0 [[.WithInstrumentationVersion "1.0"]]) [.Logger "svc-a" ⟨0, 0, 1⟩]).2 :=
  C3_emit_unbound_discards
    (acquire (init 0 [[.WithInstrumentationVersion "1.0"]]) [.Logger "svc-a" ⟨0, 0, 1⟩]).2 0
    ⟨"svc-a", ⟨0, 0, 1⟩, 0, AtomicValue.zero⟩ ⟨"R1", 9⟩ rfl rfl

/-! ## After installation -/

theorem Logger_installed {w : World} {b : LoggerProvider} (hd : w.p.delegate = some b)
    (name : String) (opts : Slice) :
    loggerProvider.Logger w name opts =
      (.backend (b.Logger name (readSlice w.arrays opts)),
        { w with
          trace := w.trace ++ [.providerLogger b.id name (readSlice w.arrays opts)] }) := by
  unfold loggerProvider.Logger
  rw [hd]

theorem acquire_installed {b : LoggerProvider} :
    ∀ (calls : List Call) {w : World}, w.p.delegate = some b →
      (acquire w calls).2.p = w.p ∧ (acquire w calls).2.heap = w.heap ∧
      (acquire w calls).2.addr = w.addr ∧
      ∀ (i : Nat) (name : String) (s : Slice), calls[i]? = some (.Logger name s) →
        (acquire w calls).1[i]?
          = some (some (.backend (b.Logger name (readSlice (before w calls i).arrays s))))
  | [], _, _ => ⟨rfl, rfl, rfl, by intro i name s h; simp at h⟩
  | .write a k x :: rest, w, hd => by
    have hacq : acquire w (.write a k x :: rest) =
        (none :: (acquire { w with arrays := writeArray w.arrays a k x } rest).1,
          (acquire { w with arrays := writeArray w.arrays a k x } rest).2) := rfl
    rw [hacq]
    obtain ⟨i1, i2, i3, i4⟩ := acquire_installed (b := b) rest
      (w := { w with arrays := writeArray w.arrays a k x }) hd
    refine ⟨i1, i2, i3, ?_⟩
    intro i name s hc
    cases i with
    | zero =>
      simp only [List.getElem?_cons_zero, Option.some.injEq] at hc
      cases hc
    | succ i =>
      simp only [List.getElem?_cons_succ] at hc
      rw [before_write]
      simp only [List.getElem?_cons_succ]
      exact i4 i name s hc
  | .Logger name opts :: rest, w, hd => by
    have hacq : acquire w (.Logger name opts :: rest) =
        (some (loggerProvider.Logger w name opts).1 ::
          (acquire (loggerProvider.Logger w name opts).2 rest).1,
          (acquire (loggerProvider.Logger w name opts).2 rest).2) := rfl
    rw [hacq]
    have hL := Logger_installed hd name opts
    have hd' : (loggerProvider.Logger w name opts).2.p.delegate = some b := by
      rw [hL]
      exact hd
    obtain ⟨i1, i2, i3, i4⟩ := acquire_installed (b := b) rest hd'
    refine ⟨?_, ?_, ?_, ?_⟩
    · rw [i1, hL]
    · rw [i2, hL]
    · rw [i3, hL]
    · intro i name1 s1 hc
      cases i with
      | zero =>
        simp only [List.getElem?_cons_zero, Option.some.injEq, Call.Logger.injEq] at hc
        obtain ⟨rfl, rfl⟩ := hc
        rw [before_zero]
        simp only [List.getElem?_cons_zero, hL]
      | succ i =>
        simp only [List.getElem?_cons_succ] at hc
        rw [before_Logger]
        simp only [List.getElem?_cons_succ]
        exact i4 i name1 s1 hc

/-- C4: once `setDelegate(B)` has returned on a registry for a non-nil backend
`B`, the placeholder map is empty, and through any number of further `Logger`
calls and writes to option slices every call `Logger(name, opts...)` returns
exactly `B.Logger(name, opts...)` for the elements the slice shows at the call,
the map is still empty and no placeholder object has been allocated. -/
theorem C4_installed_registry_bypasses_placeholders (w : World) (b : LoggerProvider)
    (hdone : (loggerProvider.setDelegate w (some b)).completed = true)
    (later : List Call) (name : String) (opts : Slice) :
    entries (loggerProvider.setDelegate w (some b)).world.p.loggers = [] ∧
    (∀ (i : Nat) (n : String) (s : Slice), later[i]? = some (.Logger n s) →
      (acquire (loggerProvider.setDelegate w (some b)).world later).1[i]?
        = some (some (.backend (b.Logger n
            (readSlice (before (loggerProvider.setDelegate w (some b)).world later i).arrays
              s))))) ∧
    (loggerProvider.Logger
        (acquire (loggerProvider.setDelegate w (some b)).world later).2 name opts).1
      = .backend (b.Logger name
          (readSlice (acquire (loggerProvider.setDelegate w (some b)).world later).2.arrays
            opts)) ∧
    entries (loggerProvider.Logger
        (acquire (loggerProvider.setDelegate w (some b)).world later).2 name opts).2.p.loggers
      = [] ∧
    (loggerProvider.Logger
        (acquire (loggerProvider.setDelegate w (some b)).world later).2 name opts).2.heap
      = (loggerProvider.setDelegate w (some b)).world.heap := by
  obtain ⟨h1, -, h3⟩ := setDelegate_registry w (some b)
  obtain ⟨i1, i2, -, i4⟩ := acquire_installed later h1
  have hd : (acquire (loggerProvider.setDelegate w (some b)).world later).2.p.delegate
      = some b := by
    rw [i1]
    exact h1
  rw [Logger_installed hd]
  refine ⟨h3 hdone, i4, rfl, ?_, i2⟩
  show entries (acquire (loggerProvider.setDelegate w (some b)).world later).2.p.loggers = []
  rw [i1]
  exact h3 hdone

/-- Witness of C4: one placeholder acquired, the backend installed, then the
same key again and a key never seen before. -/
theorem C4_installed_registry_bypasses_placeholders_witness :
    entries (loggerProvider.setDelegate (acquire (init 0 []) [.Logger "svc-a" ⟨0, 0, 0⟩]).2
      (some sampleBackend)).world.p.loggers = [] ∧
    (∀ (i : Nat) (n : String) (s : Slice),
      ([.Logger "svc-a" ⟨0, 0, 0⟩] : List Call)[i]? = some (.Logger n s) →
      (acquire (loggerProvider.setDelegate (acquire (init 0 []) [.Logger "svc-a" ⟨0, 0, 0⟩]).2
          (some sampleBackend)).world [.Logger "svc-a" ⟨0, 0, 0⟩]).1[i]?
        = some (some (.backend (sampleBackend.Logger n
            (readSlice (before
              (loggerProvider.setDelegate (acquire (init 0 []) [.Logger "svc-a" ⟨0, 0, 0⟩]).2
                (some sampleBackend)).world [.Logger "svc-a" ⟨0, 0, 0⟩] i).arrays s))))) ∧
    (loggerProvider.Logger
        (acquire (loggerProvider.setDelegate (acquire (init 0 []) [.Logger "svc-a" ⟨0, 0, 0⟩]).2
          (some sampleBackend)).world [.Logger "svc-a" ⟨0, 0, 0⟩]).2 "svc-new" ⟨0, 0, 0⟩).1
      = .backend (sampleBackend.Logger "svc-new"
          (readSlice
            (acquire
              (loggerProvider.setDelegate (acquire (init 0 []) [.Logger "svc-a" ⟨0, 0, 0⟩]).2
                (some sampleBackend)).world [.Logger "svc-a" ⟨0, 0, 0⟩]).2.arrays
            ⟨0, 0, 0⟩)) ∧
    entries (loggerProvider.Logger
        (acquire (loggerProvider.setDelegate (acquire (init 0 []) [.Logger "svc-a" ⟨0, 0, 0⟩]).2
          (some sampleBackend)).world [.Logger "svc-a" ⟨0, 0, 0⟩]).2
        "svc-new" ⟨0, 0, 0⟩).2.p.loggers
      = [] ∧
    (loggerProvider.Logger
        (acquire (loggerProvider.setDelegate (acquire (init 0 []) [.Logger "svc-a" ⟨0, 0, 0⟩]).2
          (some sampleBackend)).world [.Logger "svc-a" ⟨0, 0, 0⟩]).2
        "svc-new" ⟨0, 0, 0⟩).2.heap
      = (loggerProvider.setDelegate (acquire (init 0 []) [.Logger "svc-a" ⟨0, 0, 0⟩]).2
          (some sampleBackend)).world.heap :=
  C4_installed_registry_bypasses_placeholders
    (acquire (init 0 []) [.Logger "svc-a" ⟨0, 0, 0⟩]).2 sampleBackend rfl
    [.Logger "svc-a" ⟨0, 0, 0⟩] "svc-new" ⟨0, 0, 0⟩

/-- C10: when `setDelegate(B1)` has returned and `setDelegate(B2)` follows,
for non-nil backends, the second call returns too, makes no call to any
backend and leaves every placeholder object as it was: a handle `h` created
for `(name, opts)` before the first installation still holds the handle that
`B1.Logger(name, opts...)` gave at the first installation.  Every later
`Logger(name2, opts2...)` call on the registry returns
`B2.Logger(name2, opts2...)`. -/
theorem C10_second_install_rebinds_nothing (addr : Nat)
    (arrays : List (List LoggerOption)) (calls : List Call) (i : Nat) (name : String)
    (opts : Slice) (h : Nat)
    (hcall : calls[i]? = some (.Logger name opts))
    (hret : (acquire (init addr arrays) calls).1[i]? = some (some (.placeholder h)))
    (hfirst : ∀ j, j < i →
      (acquire (init addr arrays) calls).1[j]? ≠ some (some (.placeholder h)))
    (b1 b2 : LoggerProvider)
    (hdone : (loggerProvider.setDelegate (acquire (init addr arrays) calls).2
      (some b1)).completed = true)
    (later : List Call) (name2 : String) (opts2 : Slice) :
    (loggerProvider.setDelegate
      (loggerProvider.setDelegate (acquire (init addr arrays) calls).2 (some b1)).world
      (some b2)).completed = true ∧
    (loggerProvider.setDelegate
      (loggerProvider.setDelegate (acquire (init addr arrays) calls).2 (some b1)).world
      (some b2)).world.heap
      = (loggerProvider.setDelegate (acquire (init addr arrays) calls).2 (some b1)).world.heap ∧
    (loggerProvider.setDelegate
      (loggerProvider.setDelegate (acquire (init addr arrays) calls).2 (some b1)).world
      (some b2)).world.trace
      = (loggerProvider.setDelegate (acquire (init addr arrays) calls).2
          (some b1)).world.trace ∧
    (∃ (v : LoggerValue) (obj : logger),
      b1.Logger name (readSlice (acquire (init addr arrays) calls).2.arrays opts) = some v ∧
      (loggerProvider.setDelegate
        (loggerProvider.setDelegate (acquire (init addr arrays) calls).2 (some b1)).world
        (some b2)).world.heap[h]? = some obj ∧
      obj.delegate.Load = some v) ∧
    (loggerProvider.Logger
      (acquire
        (loggerProvider.setDelegate
          (loggerProvider.setDelegate (acquire (init addr arrays) calls).2 (some b1)).world
          (some b2)).world later).2 name2 opts2).1
      = .backend (b2.Logger name2
          (readSlice
            (acquire
              (loggerProvider.setDelegate
                (loggerProvider.setDelegate (acquire (init addr arrays) calls).2
                  (some b1)).world
                (some b2)).world later).2.arrays opts2)) := by
  obtain ⟨v, hv, hobj⟩ := bound_after_install hcall hret hfirst b1 hdone
  have hempty :=
    (setDelegate_registry (acquire (init addr arrays) calls).2 (some b1)).2.2 hdone
  have hlen : (entries (loggerProvider.setDelegate (acquire (init addr arrays) calls).2
      (some b1)).world.p.loggers).length = 0 := by
    rw [hempty]
    rfl
  have h2 : loggerProvider.setDelegate
      (loggerProvider.setDelegate (acquire (init addr arrays) calls).2 (some b1)).world
      (some b2)
      = .returned ()
        { (loggerProvider.setDelegate (acquire (init addr arrays) calls).2 (some b1)).world with
          p := { (loggerProvider.setDelegate (acquire (init addr arrays) calls).2
              (some b1)).world.p with delegate := some b2 } } := by
    rw [setDelegate_unfold
      (loggerProvider.setDelegate (acquire (init addr arrays) calls).2 (some b1)).world
      (some b2)]
    rw [if_pos hlen]
  rw [h2]
  refine ⟨rfl, rfl, rfl, ⟨v, _, hv, hobj, rfl⟩, ?_⟩
  have hd : (Outcome.returned ()
      { (loggerProvider.setDelegate (acquire (init addr arrays) calls).2 (some b1)).world with
        p := { (loggerProvider.setDelegate (acquire (init addr arrays) calls).2
            (some b1)).world.p with delegate := some b2 } } : Outcome Unit).world.p.delegate
      = some b2 := rfl
  obtain ⟨i1, -, -, -⟩ := acquire_installed later hd
  rw [Logger_installed (i1.symm ▸ hd)]

/-- Witness of C10: "svc-a" acquired, then two installations and a later
call for "svc-b". -/
theorem C10_second_install_rebinds_nothing_witness :
    (loggerProvider.setDelegate
      (loggerProvider.setDelegate (acquire (init 0 []) [.Logger "svc-a" ⟨0, 0, 0⟩]).2
        (some sampleBackend)).world
      (some otherBackend)).completed = true ∧
    (loggerProvider.setDelegate
      (loggerProvider.setDelegate (acquire (init 0 []) [.Logger "svc-a" ⟨0, 0, 0⟩]).2
        (some sampleBackend)).world
      (some otherBackend)).world.heap
      = (loggerProvider.setDelegate (acquire (init 0 []) [.Logger "svc-a" ⟨0, 0, 0⟩]).2
        (some sampleBackend)).world.heap ∧
    (loggerProvider.setDelegate
      (loggerProvider.setDelegate (acquire (init 0 []) [.Logger "svc-a" ⟨0, 0, 0⟩]).2
        (some sampleBackend)).world
      (some otherBackend)).world.trace
      = (loggerProvider.setDelegate (acquire (init 0 []) [.Logger "svc-a" ⟨0, 0, 0⟩]).2
        (some sampleBackend)).world.trace ∧
    (∃ (v : LoggerValue) (obj : logger),
      sampleBackend.Logger "svc-a"
        (readSlice (acquire (init 0 []) [.Logger "svc-a" ⟨0, 0, 0⟩]).2.arrays ⟨0, 0, 0⟩)
        = some v ∧
      (loggerProvider.setDelegate
        (loggerProvider.setDelegate (acquire (init 0 []) [.Logger "svc-a" ⟨0, 0, 0⟩]).2
          (some sampleBackend)).world
        (some otherBackend)).world.heap[0]? = some obj ∧
      obj.delegate.Load = some v) ∧
    (loggerProvider.Logger
      (acquire
        (loggerProvider.setDelegate
          (loggerProvider.setDelegate (acquire (init 0 []) [.Logger "svc-a" ⟨0, 0, 0⟩]).2
            (some sampleBackend)).world
          (some otherBackend)).world []).2 "svc-b" ⟨0, 0, 0⟩).1
      = .backend (otherBackend.Logger "svc-b"
          (readSlice
            (acquire
              (loggerProvider.setDelegate
                (loggerProvider.setDelegate (acquire (init 0 []) [.Logger "svc-a" ⟨0, 0, 0⟩]).2
                  (some sampleBackend)).world
                (some otherBackend)).world []).2.arrays ⟨0, 0, 0⟩)) :=
  C10_second_install_rebinds_nothing 0 [] [.Logger "svc-a" ⟨0, 0, 0⟩] 0 "svc-a" ⟨0, 0, 0⟩ 0
    rfl rfl (fun j hj => absurd hj (Nat.not_lt_zero j)) sampleBackend otherBackend rfl []
    "svc-b" ⟨0, 0, 0⟩

/-! ## When installation returns -/

theorem rangeSetDelegate_completes (b : LoggerProvider) :
    ∀ (l : List (il × Nat)) (w : World), (l.map Prod.snd).Nodup →
      (∀ (k : il) (t : Nat), (k, t) ∈ l →
        ∃ (obj : logger) (v : LoggerValue), w.heap[t]? = some obj ∧
          obj.delegate.v = none ∧ b.Logger obj.name (readSlice w.arrays obj.opts) = some v) →
      (rangeSetDelegate (some b) l w).completed = true
  | [], _, _, _ => rfl
  | (k0, t0) :: rest, w, hnd, hall => by
    rw [List.map_cons, List.nodup_cons] at hnd
    obtain ⟨hnot, hrest⟩ := hnd
    obtain ⟨obj0, v0, h0, hv0, hb0⟩ := hall k0 t0 (List.mem_cons_self _ _)
    have hs : obj0.delegate.Store (b.Logger obj0.name (readSlice w.arrays obj0.opts))
        = .ok ⟨some v0, obj0.delegate.stores + 1⟩ := by
      rw [hb0]
      simp only [AtomicValue.Store, hv0]
    have e : rangeSetDelegate (some b) ((k0, t0) :: rest) w =
        rangeSetDelegate (some b) rest
          { w with
            trace := w.trace ++ [.providerLogger b.id obj0.name (readSlice w.arrays obj0.opts)]
            heap := w.heap.set t0
              { obj0 with delegate := ⟨some v0, obj0.delegate.stores + 1⟩ } } := by
      conv => lhs; unfold rangeSetDelegate
      rw [logger_setDelegate_ok b h0 hs]
    rw [e]
    apply rangeSetDelegate_completes b rest _ hrest
    intro k t hkt
    obtain ⟨obj, v, h1, h2, h3⟩ := hall k t (List.mem_cons_of_mem _ hkt)
    have ht : t0 ≠ t := by
      intro e
      subst e
      exact hnot (List.mem_map.mpr ⟨(k, t0), hkt, rfl⟩)
    refine ⟨obj, v, ?_, h2, h3⟩
    show (w.heap.set t0 _)[t]? = some obj
    rw [List.getElem?_set_ne ht]
    exact h1

theorem setDelegate_nil_panics {w : World} (hne : entries w.p.loggers ≠ []) :
    (loggerProvider.setDelegate w none).completed = false := by
  rw [setDelegate_unfold]
  have hlen : ¬ (entries w.p.loggers).length = 0 := fun h => hne (List.length_eq_zero.mp h)
  rw [if_neg hlen]
  cases hl : entries w.p.loggers with
  | nil => exact absurd hl hne
  | cons e rest =>
    obtain ⟨k, t⟩ := e
    unfold rangeSetDelegate
    rw [logger_setDelegate_nil]
    rfl

/-- C6, as the code has it: on a registry on which only `Logger` has been
called, `setDelegate(provider)` returns normally exactly when, for every
placeholder handle issued so far, `provider` is a non-nil backend whose
`Logger` returns a non-nil handle for that placeholder's name and the options
its slice shows at the installation.  In
particular it returns for every argument when no placeholder was issued, and
for every non-nil backend that never returns a nil handle. -/
theorem C6_setDelegate_returns_iff (addr : Nat) (arrays : List (List LoggerOption))
    (calls : List Call) (provider : Option LoggerProvider) :
    (loggerProvider.setDelegate (acquire (init addr arrays) calls).2 provider).completed
        = true ↔
      ∀ obj ∈ (acquire (init addr arrays) calls).2.heap,
        ∃ (b : LoggerProvider) (v : LoggerValue),
          provider = some b ∧
          b.Logger obj.name
            (readSlice (acquire (init addr arrays) calls).2.arrays obj.opts) = some v := by
  obtain ⟨g1, -, -, -, -⟩ := acquire_spec calls (preInstall_init addr arrays)
  constructor
  · intro hdone obj hobj
    obtain ⟨t, ht⟩ := List.getElem?_of_mem hobj
    have hmem := g1.full t obj ht
    cases provider with
    | none =>
      have hne : entries (acquire (init addr arrays) calls).2.p.loggers ≠ [] := by
        intro e
        rw [e] at hmem
        simp at hmem
      rw [setDelegate_nil_panics hne] at hdone
      cases hdone
    | some b =>
      obtain ⟨d, hs, -⟩ := ((setDelegate_completed b g1.vals hdone).1 t obj ht).2 hmem
      rw [g1.fresh t obj ht] at hs
      obtain ⟨v, hv, -⟩ := store_zero hs
      exact ⟨b, v, rfl, hv⟩
  · intro hall
    rw [setDelegate_unfold]
    by_cases hlen : (entries (acquire (init addr arrays) calls).2.p.loggers).length = 0
    · rw [if_pos hlen]
      rfl
    · rw [if_neg hlen]
      cases provider with
      | none =>
        exfalso
        apply hlen
        cases hl : entries (acquire (init addr arrays) calls).2.p.loggers with
        | nil => rfl
        | cons e rest =>
          obtain ⟨k, t⟩ := e
          obtain ⟨obj, ho, -⟩ := g1.bound k t (by rw [hl]; exact List.mem_cons_self _ _)
          obtain ⟨b, v, hb, -⟩ := hall obj (List.getElem?_mem ho)
          cases hb
      | some b =>
        have hc := rangeSetDelegate_completes b
          (entries (acquire (init addr arrays) calls).2.p.loggers)
          { (acquire (init addr arrays) calls).2 with
            p := { (acquire (init addr arrays) calls).2.p with delegate := some b } } g1.vals
          (by
            intro k t hkt
            obtain ⟨obj, ho, -⟩ := g1.bound k t hkt
            obtain ⟨b', v, hb, hv⟩ := hall obj (List.getElem?_mem ho)
            cases hb
            refine ⟨obj, v, ho, ?_, hv⟩
            rw [g1.fresh t obj ho]
            rfl)
        cases hloop : rangeSetDelegate (some b)
            (entries (acquire (init addr arrays) calls).2.p.loggers)
            { (acquire (init addr arrays) calls).2 with
              p := { (acquire (init addr arrays) calls).2.p with delegate := some b } } with
        | panicked msg w2 =>
          rw [hloop] at hc
          cases hc
        | returned u w2 => rfl

/-- C6 fails as stated: with one placeholder handle issued, installing a
backend whose `Logger` returns the nil handle panics in `atomic.Value.Store`,
and installing the nil backend panics on the method call. -/
theorem C6_setDelegate_can_panic :
    (loggerProvider.setDelegate (acquire (init 0 []) [.Logger "svc-a" ⟨0, 0, 0⟩]).2
      (some nilBackend)).panic = some "sync/atomic: store of nil value into Value" ∧
    (loggerProvider.setDelegate (acquire (init 0 []) [.Logger "svc-a" ⟨0, 0, 0⟩]).2 none).panic
      = some "invalid memory address or nil pointer dereference" :=
  ⟨rfl, rfl⟩

/-! ## The order in which `range` visits the map -/

theorem rangeSetDelegate_completes_iff (b : LoggerProvider) :
    ∀ (l : List (il × Nat)) (w : World), (l.map Prod.snd).Nodup →
      ((rangeSetDelegate (some b) l w).completed = true ↔
        ∀ (k : il) (t : Nat), (k, t) ∈ l →
          ∃ (obj : logger) (d : AtomicValue), w.heap[t]? = some obj ∧
            obj.delegate.Store (b.Logger obj.name (readSlice w.arrays obj.opts)) = .ok d)
  | [], _, _ => by
    constructor
    · intro _ k t h
      simp at h
    · intro _
      rfl
  | (k0, t0) :: rest, w, hnd => by
    rw [List.map_cons, List.nodup_cons] at hnd
    obtain ⟨hnot, hrest⟩ := hnd
    cases h0 : w.heap[t0]? with
    | none =>
      have e : rangeSetDelegate (some b) ((k0, t0) :: rest) w = .panicked nilDeref w := by
        unfold rangeSetDelegate
        rw [logger_setDelegate_dangling b h0]
      rw [e]
      constructor
      · intro h
        cases h
      · intro h
        obtain ⟨obj, d, ho, -⟩ := h k0 t0 (List.mem_cons_self _ _)
        rw [h0] at ho
        cases ho
    | some obj0 =>
      cases hs : obj0.delegate.Store (b.Logger obj0.name (readSlice w.arrays obj0.opts)) with
      | error msg =>
        have e : rangeSetDelegate (some b) ((k0, t0) :: rest) w =
            .panicked msg
              { w with trace := w.trace ++ [.providerLogger b.id obj0.name (readSlice w.arrays obj0.opts)] } := by
          unfold rangeSetDelegate
          rw [logger_setDelegate_error b h0 hs]
        rw [e]
        constructor
        · intro h
          cases h
        · intro h
          obtain ⟨obj, d, ho, hd⟩ := h k0 t0 (List.mem_cons_self _ _)
          rw [h0] at ho
          cases ho
          rw [hs] at hd
          cases hd
      | ok d =>
        have e : rangeSetDelegate (some b) ((k0, t0) :: rest) w =
            rangeSetDelegate (some b) rest
              { w with
                trace := w.trace ++ [.providerLogger b.id obj0.name (readSlice w.arrays obj0.opts)]
                heap := w.heap.set t0 { obj0 with delegate := d } } := by
          conv => lhs; unfold rangeSetDelegate
          rw [logger_setDelegate_ok b h0 hs]
        rw [e, rangeSetDelegate_completes_iff b rest _ hrest]
        have hne : ∀ (k : il) (t : Nat), (k, t) ∈ rest → t0 ≠ t := by
          intro k t hkt e
          subst e
          exact hnot (List.mem_map.mpr ⟨(k, t0), hkt, rfl⟩)
        constructor
        · intro h k t hkt
          rcases List.mem_cons.mp hkt with hkt | hkt
          · cases hkt
            exact ⟨obj0, d, h0, hs⟩
          · obtain ⟨obj, d', ho, hd⟩ := h k t hkt
            refine ⟨obj, d', ?_, hd⟩
            rw [← List.getElem?_set_ne (hne k t hkt)]
            exact ho
        · intro h k t hkt
          obtain ⟨obj, d', ho, hd⟩ := h k t (List.mem_cons_of_mem _ hkt)
          refine ⟨obj, d', ?_, hd⟩
          show (w.heap.set t0 _)[t]? = some obj
          rw [List.getElem?_set_ne (hne k t hkt)]
          exact ho

/-- Visiting the entries of the map in another order changes neither whether
the loop of `setDelegate` completes nor, when it does, the heap it leaves. -/
theorem rangeSetDelegate_order (b : LoggerProvider) {l l' : List (il × Nat)} (w : World)
    (hperm : l.Perm l') (hnd : (l.map Prod.snd).Nodup) :
    (rangeSetDelegate (some b) l' w).completed = (rangeSetDelegate (some b) l w).completed ∧
    ((rangeSetDelegate (some b) l w).completed = true →
      (rangeSetDelegate (some b) l' w).world.heap
        = (rangeSetDelegate (some b) l w).world.heap) := by
  have hnd' : (l'.map Prod.snd).Nodup := (hperm.map Prod.snd).nodup_iff.mp hnd
  have hiff : (rangeSetDelegate (some b) l' w).completed = true ↔
      (rangeSetDelegate (some b) l w).completed = true := by
    rw [rangeSetDelegate_completes_iff b l' w hnd', rangeSetDelegate_completes_iff b l w hnd]
    constructor
    · intro h k t hkt
      exact h k t (hperm.mem_iff.mp hkt)
    · intro h k t hkt
      exact h k t (hperm.mem_iff.mpr hkt)
  refine ⟨?_, ?_⟩
  · cases h1 : (rangeSetDelegate (some b) l w).completed with
    | true => exact hiff.mpr h1
    | false =>
      cases h2 : (rangeSetDelegate (some b) l' w).completed with
      | false => rfl
      | true =>
        rw [hiff.mp h2] at h1
        cases h1
  · intro hc
    have hc' := hiff.mpr hc
    obtain ⟨-, -, i3, i4, -⟩ := rangeSetDelegate_effect b l w hnd
    obtain ⟨-, -, j3, j4, -⟩ := rangeSetDelegate_effect b l' w hnd'
    apply List.ext_getElem?
    intro t
    cases ht : w.heap[t]? with
    | none => rw [i4 t ht, j4 t ht]
    | some obj =>
      by_cases hmem : t ∈ l.map Prod.snd
      · obtain ⟨d, hs, hd⟩ := (i3 t obj ht).2.2 hc hmem
        obtain ⟨d', hs', hd'⟩ := (j3 t obj ht).2.2 hc' ((hperm.map Prod.snd).mem_iff.mp hmem)
        rw [hs] at hs'
        cases hs'
        rw [hd, hd']
      · have hmem' : t ∉ l'.map Prod.snd :=
          fun h => hmem ((hperm.map Prod.snd).mem_iff.mpr h)
        rw [(i3 t obj ht).1 hmem, (j3 t obj ht).1 hmem']

/-! ## Options outside the identity key -/

theorem acquire_arrays_of_no_write :
    ∀ (calls : List Call) (w : World), (∀ c ∈ calls, c.isWrite = false) →
      (acquire w calls).2.arrays = w.arrays
  | [], _, _ => rfl
  | .Logger name opts :: rest, w, h => by
    have ih := acquire_arrays_of_no_write rest (loggerProvider.Logger w name opts).2
      (fun c hc => h c (List.mem_cons_of_mem _ hc))
    rw [Logger_arrays] at ih
    exact ih
  | .write a k x :: rest, w, h => by
    have := h (.write a k x) (List.mem_cons_self _ _)
    cases this

theorem before_arrays_of_no_write (calls : List Call) (w : World)
    (h : ∀ c ∈ calls, c.isWrite = false) (i : Nat) : (before w calls i).arrays = w.arrays :=
  acquire_arrays_of_no_write (calls.take i) w (fun c hc => h c (List.mem_of_mem_take hc))

theorem Logger_keyed {w : World} (hw : PreInstall w) (hk : Keyed w) (name : String)
    (opts : Slice) : Keyed (loggerProvider.Logger w name opts).2 := by
  have hd := hw.nodelegate
  cases hget : mapGet (keyOf name (readSlice w.arrays opts)) (entries w.p.loggers) with
  | some val =>
    rw [Logger_hit hd hget]
    exact hk
  | none =>
    rw [Logger_miss hd hget]
    intro k t hkt
    rcases List.mem_append.mp hkt with h | h
    · obtain ⟨obj, hobj, hkey⟩ := hk k t h
      refine ⟨obj, ?_, hkey⟩
      show (w.heap ++ [_])[t]? = some obj
      rw [List.getElem?_append_left (List.getElem?_eq_some_iff.mp hobj).1]
      exact hobj
    · simp only [List.mem_singleton, Prod.mk.injEq] at h
      obtain ⟨rfl, rfl⟩ := h
      refine ⟨⟨name, opts, w.addr, AtomicValue.zero⟩, ?_, rfl⟩
      show (w.heap ++ [_])[w.heap.length]? = some _
      simp

theorem acquire_keyed :
    ∀ (calls : List Call) {w : World}, (∀ c ∈ calls, c.isWrite = false) → PreInstall w →
      Keyed w → Keyed (acquire w calls).2
  | [], _, _, _, hk => hk
  | .Logger name opts :: rest, w, h, hw, hk =>
    acquire_keyed rest (fun c hc => h c (List.mem_cons_of_mem _ hc))
      (Logger_preInstall hw name opts).1 (Logger_keyed hw hk name opts)
  | .write a k x :: rest, w, h, _, _ => by
    have := h (.write a k x) (List.mem_cons_self _ _)
    cases this

theorem keyed_init (addr : Nat) (arrays : List (List LoggerOption)) :
    Keyed (init addr arrays) := by
  intro k t h
  simp [init, entries] at h

/-- C9, as the code has it: on a registry without backend, let a
`Logger(name, opts1...)` call create the handle `h` (it is the first call to
return `h`) and let another call use the same name and a slice `opts2` that
shows, when it is called, the instrumentation version that `opts1` showed
when the first was called.  That call returns `h`, and `h` keeps the slice
`opts1`.  Once `setDelegate(B)` has returned, the slot of `h` holds what
`B.Logger` gives for `name` and the elements `opts1` shows at the
installation; these are the elements of the first call when no write went to
the backing array of `opts1` since.  When callers write to no slice at all and
the two slices show different options, `B.Logger` is never called with `name`
and the options of the second call. -/
theorem C9_key_ignores_other_options_unless_written (addr : Nat)
    (arrays : List (List LoggerOption)) (calls : List Call) (i j : Nat) (name : String)
    (opts1 opts2 : Slice) (h : Nat)
    (hc1 : calls[i]? = some (.Logger name opts1))
    (hc2 : calls[j]? = some (.Logger name opts2))
    (hver : (NewLoggerConfig
        (readSlice (before (init addr arrays) calls i).arrays opts1)).InstrumentationVersion
      = (NewLoggerConfig
        (readSlice (before (init addr arrays) calls j).arrays opts2)).InstrumentationVersion)
    (hret : (acquire (init addr arrays) calls).1[i]? = some (some (.placeholder h)))
    (hfirst : ∀ k, k < i →
      (acquire (init addr arrays) calls).1[k]? ≠ some (some (.placeholder h)))
    (b : LoggerProvider)
    (hdone : (loggerProvider.setDelegate (acquire (init addr arrays) calls).2
      (some b)).completed = true) :
    (acquire (init addr arrays) calls).1[j]? = some (some (.placeholder h)) ∧
    (acquire (init addr arrays) calls).2.heap[h]?
      = some ⟨name, opts1, addr, AtomicValue.zero⟩ ∧
    (∃ v : LoggerValue,
      b.Logger name (readSlice (acquire (init addr arrays) calls).2.arrays opts1) = some v ∧
      (loggerProvider.setDelegate (acquire (init addr arrays) calls).2
        (some b)).world.heap[h]? = some ⟨name, opts1, addr, ⟨some v, 1⟩⟩) ∧
    ((∀ (a k : Nat) (x : LoggerOption), Call.write a k x ∈ calls.drop i → a ≠ opts1.array) →
      readSlice (acquire (init addr arrays) calls).2.arrays opts1
        = readSlice (before (init addr arrays) calls i).arrays opts1) ∧
    ((∀ c ∈ calls, c.isWrite = false) → readSlice arrays opts1 ≠ readSlice arrays opts2 →
      Event.providerLogger b.id name (readSlice arrays opts2) ∉
        (loggerProvider.setDelegate (acquire (init addr arrays) calls).2
          (some b)).world.trace) := by
  obtain ⟨g1, -, -, -, g5⟩ := acquire_spec calls (preInstall_init addr arrays)
  obtain ⟨hobj, -, hget⟩ := created_by_first hc1 hret hfirst
  have hkey : keyOf name (readSlice (before (init addr arrays) calls j).arrays opts2)
      = keyOf name (readSlice (before (init addr arrays) calls i).arrays opts1) := by
    unfold keyOf
    rw [hver]
  refine ⟨?_, hobj, bound_after_install hc1 hret hfirst b hdone, ?_, ?_⟩
  · obtain ⟨t, a1, a2, -⟩ := g5 j name opts2 hc2
    rw [hkey, hget] at a2
    cases a2
    exact a1
  · intro hw
    rw [acquire_from_before (init addr arrays) calls i]
    exact acquire_readSlice opts1 (calls.drop i) _ hw
  · intro hnw hne hmem
    have harr : (acquire (init addr arrays) calls).2.arrays = arrays :=
      acquire_arrays_of_no_write calls (init addr arrays) hnw
    have hbi : (before (init addr arrays) calls i).arrays = arrays :=
      before_arrays_of_no_write calls (init addr arrays) hnw i
    have hbj : (before (init addr arrays) calls j).arrays = arrays :=
      before_arrays_of_no_write calls (init addr arrays) hnw j
    have hkd := acquire_keyed calls hnw (preInstall_init addr arrays) (keyed_init addr arrays)
    rw [hbi] at hget
    rw [hbi, hbj] at hkey
    rcases (setDelegate_completed b g1.vals hdone).2 _ hmem with hq | ⟨k, t, obj, hkt, ho, he⟩
    · rw [g1.quiet] at hq
      simp at hq
    · obtain ⟨obj', ho', hk⟩ := hkd k t hkt
      rw [ho] at ho'
      cases ho'
      rw [harr] at he hk
      simp only [Event.providerLogger.injEq, true_and] at he
      obtain ⟨hn, hopts⟩ := he
      rw [← hn, ← hopts, hkey] at hk
      subst hk
      have ht := mapGet_of_mem g1.keys hkt
      rw [hget] at ht
      cases ht
      rw [hobj] at ho
      cases ho
      exact hne hopts.symm

/-- Witness of C9: "svc-a" at version "1.0", first through a slice without and
then through a slice with a schema URL. -/
theorem C9_key_ignores_other_options_unless_written_witness :
    (acquire (init 0 [[.WithInstrumentationVersion "1.0"],
        [.WithSchemaURL "u", .WithInstrumentationVersion "1.0"]])
      [.Logger "svc-a" ⟨0, 0, 1⟩, .Logger "svc-a" ⟨1, 0, 2⟩]).1[1]?
      = some (some (.placeholder 0)) ∧
    (acquire (init 0 [[.WithInstrumentationVersion "1.0"],
        [.WithSchemaURL "u", .WithInstrumentationVersion "1.0"]])
      [.Logger "svc-a" ⟨0, 0, 1⟩, .Logger "svc-a" ⟨1, 0, 2⟩]).2.heap[0]?
      = some ⟨"svc-a", ⟨0, 0, 1⟩, 0, AtomicValue.zero⟩ ∧
    (∃ v : LoggerValue,
      sampleBackend.Logger "svc-a"
        (readSlice (acquire (init 0 [[.WithInstrumentationVersion "1.0"],
            [.WithSchemaURL "u", .WithInstrumentationVersion "1.0"]])
          [.Logger "svc-a" ⟨0, 0, 1⟩, .Logger "svc-a" ⟨1, 0, 2⟩]).2.arrays ⟨0, 0, 1⟩)
        = some v ∧
      (loggerProvider.setDelegate (acquire (init 0 [[.WithInstrumentationVersion "1.0"],
            [.WithSchemaURL "u", .WithInstrumentationVersion "1.0"]])
          [.Logger "svc-a" ⟨0, 0, 1⟩, .Logger "svc-a" ⟨1, 0, 2⟩]).2
        (some sampleBackend)).world.heap[0]?
        = some ⟨"svc-a", ⟨0, 0, 1⟩, 0, ⟨some v, 1⟩⟩) ∧
    readSlice (acquire (init 0 [[.WithInstrumentationVersion "1.0"],
          [.WithSchemaURL "u", .WithInstrumentationVersion "1.0"]])
        [.Logger "svc-a" ⟨0, 0, 1⟩, .Logger "svc-a" ⟨1, 0, 2⟩]).2.arrays ⟨0, 0, 1⟩
      = readSlice (before (init 0 [[.WithInstrumentationVersion "1.0"],
          [.WithSchemaURL "u", .WithInstrumentationVersion "1.0"]])
        [.Logger "svc-a" ⟨0, 0, 1⟩, .Logger "svc-a" ⟨1, 0, 2⟩] 0).arrays ⟨0, 0, 1⟩ ∧
    Event.providerLogger sampleBackend.id "svc-a"
        (readSlice [[.WithInstrumentationVersion "1.0"],
          [.WithSchemaURL "u", .WithInstrumentationVersion "1.0"]] ⟨1, 0, 2⟩) ∉
      (loggerProvider.setDelegate (acquire (init 0 [[.WithInstrumentationVersion "1.0"],
            [.WithSchemaURL "u", .WithInstrumentationVersion "1.0"]])
          [.Logger "svc-a" ⟨0, 0, 1⟩, .Logger "svc-a" ⟨1, 0, 2⟩]).2
        (some sampleBackend)).world.trace :=
  have hall := C9_key_ignores_other_options_unless_written 0
    [[.WithInstrumentationVersion "1.0"],
      [.WithSchemaURL "u", .WithInstrumentationVersion "1.0"]]
    [.Logger "svc-a" ⟨0, 0, 1⟩, .Logger "svc-a" ⟨1, 0, 2⟩] 0 1 "svc-a" ⟨0, 0, 1⟩ ⟨1, 0, 2⟩ 0
    rfl rfl rfl rfl (fun k hk => absurd hk (Nat.not_lt_zero k)) sampleBackend rfl
  ⟨hall.1, hall.2.1, hall.2.2.1,
    hall.2.2.2.1 (by
      intro a k x hmem
      simp at hmem),
    hall.2.2.2.2 (by decide) (by decide)⟩

/-- C9 fails as stated: "svc-a" is asked for twice through one slice, which
shows [version "1.0", schema URL "a"] at the first call and, after the caller
has overwritten its second element, [version "1.0", schema URL "bb"] at the
second.  Both calls return the handle that the first created, the
installation returns, and the backend has been called with the options of the
second call: the slot holds what it gives for them, which is another handle
than the one it gives for the options of the first call. -/
theorem C9_second_options_reach_backend :
    readSlice (before (init 0 [[.WithInstrumentationVersion "1.0", .WithSchemaURL "a"]])
        [.Logger "svc-a" ⟨0, 0, 2⟩, .write 0 1 (.WithSchemaURL "bb"),
          .Logger "svc-a" ⟨0, 0, 2⟩] 0).arrays ⟨0, 0, 2⟩
      = [.WithInstrumentationVersion "1.0", .WithSchemaURL "a"] ∧
    readSlice (before (init 0 [[.WithInstrumentationVersion "1.0", .WithSchemaURL "a"]])
        [.Logger "svc-a" ⟨0, 0, 2⟩, .write 0 1 (.WithSchemaURL "bb"),
          .Logger "svc-a" ⟨0, 0, 2⟩] 2).arrays ⟨0, 0, 2⟩
      = [.WithInstrumentationVersion "1.0", .WithSchemaURL "bb"] ∧
    (NewLoggerConfig
        [.WithInstrumentationVersion "1.0", .WithSchemaURL "a"]).InstrumentationVersion
      = (NewLoggerConfig
        [.WithInstrumentationVersion "1.0", .WithSchemaURL "bb"]).InstrumentationVersion ∧
    (acquire (init 0 [[.WithInstrumentationVersion "1.0", .WithSchemaURL "a"]])
        [.Logger "svc-a" ⟨0, 0, 2⟩, .write 0 1 (.WithSchemaURL "bb"),
          .Logger "svc-a" ⟨0, 0, 2⟩]).1
      = [some (.placeholder 0), none, some (.placeholder 0)] ∧
    (loggerProvider.setDelegate
      (acquire (init 0 [[.WithInstrumentationVersion "1.0", .WithSchemaURL "a"]])
        [.Logger "svc-a" ⟨0, 0, 2⟩, .write 0 1 (.WithSchemaURL "bb"),
          .Logger "svc-a" ⟨0, 0, 2⟩]).2
      (some sampleBackend)).completed = true ∧
    (loggerProvider.setDelegate
      (acquire (init 0 [[.WithInstrumentationVersion "1.0", .WithSchemaURL "a"]])
        [.Logger "svc-a" ⟨0, 0, 2⟩, .write 0 1 (.WithSchemaURL "bb"),
          .Logger "svc-a" ⟨0, 0, 2⟩]).2
      (some sampleBackend)).world.trace
      = [.providerLogger 1 "svc-a" [.WithInstrumentationVersion "1.0", .WithSchemaURL "bb"]] ∧
    (loggerProvider.setDelegate
      (acquire (init 0 [[.WithInstrumentationVersion "1.0", .WithSchemaURL "a"]])
        [.Logger "svc-a" ⟨0, 0, 2⟩, .write 0 1 (.WithSchemaURL "bb"),
          .Logger "svc-a" ⟨0, 0, 2⟩]).2
      (some sampleBackend)).world.heap[0]?
      = some ⟨"svc-a", ⟨0, 0, 2⟩, 0,
          ⟨sampleBackend.Logger "svc-a"
            [.WithInstrumentationVersion "1.0", .WithSchemaURL "bb"], 1⟩⟩ ∧
    sampleBackend.Logger "svc-a" [.WithInstrumentationVersion "1.0", .WithSchemaURL "bb"]
      ≠ sampleBackend.Logger "svc-a" [.WithInstrumentationVersion "1.0", .WithSchemaURL "a"] := by
  refine ⟨rfl, rfl, rfl, ?_, rfl, ?_, ?_, ?_⟩
  · decide
  · decide
  · decide
  · decide

/-! ## The life of a delegate slot -/

theorem Logger_heap (w : World) (name : String) (opts : Slice) :
    ((loggerProvider.Logger w name opts).2.heap = w.heap ∧
      entries (loggerProvider.Logger w name opts).2.p.loggers = entries w.p.loggers) ∨
    ((loggerProvider.Logger w name opts).2.heap
        = w.heap ++ [⟨name, opts, w.addr, AtomicValue.zero⟩] ∧
      entries (loggerProvider.Logger w name opts).2.p.loggers
        = entries w.p.loggers ++ [(keyOf name (readSlice w.arrays opts), w.heap.length)]) := by
  cases hd : w.p.delegate with
  | some b =>
    rw [Logger_installed hd]
    exact Or.inl ⟨rfl, rfl⟩
  | none =>
    cases hget : mapGet (keyOf name (readSlice w.arrays opts)) (entries w.p.loggers) with
    | some val =>
      rw [Logger_hit hd hget]
      exact Or.inl ⟨rfl, rfl⟩
    | none =>
      rw [Logger_miss hd hget]
      exact Or.inr ⟨rfl, rfl⟩

theorem Emit_world (w : World) (t : Nat) (r : LogRecord) :
    (logger.Emit w t r).world.heap = w.heap ∧ (logger.Emit w t r).world.p = w.p := by
  unfold logger.Emit
  cases w.heap[t]? with
  | none => exact ⟨rfl, rfl⟩
  | some obj =>
    cases h : obj.delegate.Load <;> simp only [h, Outcome.world, and_self]

theorem setDelegate_world (w : World) (provider : Option LoggerProvider) :
    (loggerProvider.setDelegate w provider).world.heap.length = w.heap.length ∧
    (entries (loggerProvider.setDelegate w provider).world.p.loggers = entries w.p.loggers ∨
      entries (loggerProvider.setDelegate w provider).world.p.loggers = []) ∧
    ∃ w1 : World, w1.heap = w.heap ∧ w1.arrays = w.arrays ∧
      ((loggerProvider.setDelegate w provider).world = w1 ∨
      (loggerProvider.setDelegate w provider).world.heap
        = (rangeSetDelegate provider (entries w.p.loggers) w1).world.heap) := by
  rw [setDelegate_unfold]
  by_cases hlen : (entries w.p.loggers).length = 0
  · rw [if_pos hlen]
    exact ⟨rfl, Or.inl rfl, { w with p := { w.p with delegate := provider } }, rfl, rfl,
      Or.inl rfl⟩
  · rw [if_neg hlen]
    obtain ⟨i1, -, i3, -⟩ := rangeSetDelegate_registry provider (entries w.p.loggers)
      { w with p := { w.p with delegate := provider } }
    refine ⟨?_, ?_, { w with p := { w.p with delegate := provider } }, rfl, rfl, Or.inr ?_⟩
    · cases hloop : rangeSetDelegate provider (entries w.p.loggers)
          { w with p := { w.p with delegate := provider } } with
      | panicked msg w2 =>
        rw [hloop] at i3
        exact i3
      | returned u w2 =>
        rw [hloop] at i3
        exact i3
    · cases hloop : rangeSetDelegate provider (entries w.p.loggers)
          { w with p := { w.p with delegate := provider } } with
      | panicked msg w2 =>
        rw [hloop] at i1
        simp only [Outcome.world] at i1 ⊢
        rw [i1]
        exact Or.inl rfl
      | returned u w2 => exact Or.inr rfl
    · cases hloop : rangeSetDelegate provider (entries w.p.loggers)
          { w with p := { w.p with delegate := provider } } with
      | panicked msg w2 => rfl
      | returned u w2 => rfl

theorem step_mapShape {w : World} (hw : MapShape w) (op : Op) : MapShape (step w op) := by
  cases op with
  | Logger name opts =>
    show MapShape (loggerProvider.Logger w name opts).2
    rcases Logger_heap w name opts with ⟨h1, h2⟩ | ⟨h1, h2⟩
    · refine ⟨?_, ?_⟩
      · rw [h2]
        exact hw.vals
      · rw [h1, h2]
        exact hw.valid
    · refine ⟨?_, ?_⟩
      · rw [h2, List.map_append]
        exact nodup_snoc hw.vals (fun hm => absurd (hw.valid _ hm) (lt_irrefl _))
      · rw [h1, h2, List.map_append]
        intro t ht
        simp only [List.length_append, List.length_singleton]
        rcases List.mem_append.mp ht with ht | ht
        · exact Nat.lt_succ_of_lt (hw.valid _ ht)
        · simp only [List.map_cons, List.map_nil, List.mem_singleton] at ht
          omega
  | setDelegate provider =>
    show MapShape (loggerProvider.setDelegate w provider).world
    obtain ⟨h1, h2, -⟩ := setDelegate_world w provider
    rcases h2 with h2 | h2
    · refine ⟨?_, ?_⟩
      · rw [h2]
        exact hw.vals
      · rw [h1, h2]
        exact hw.valid
    · refine ⟨?_, ?_⟩
      · rw [h2]
        exact List.nodup_nil
      · rw [h2]
        intro t ht
        simp at ht
  | Emit t r =>
    show MapShape (logger.Emit w t r).world
    obtain ⟨h1, h2⟩ := Emit_world w t r
    refine ⟨?_, ?_⟩
    · rw [h2]
      exact hw.vals
    · rw [h1, h2]
      exact hw.valid
  | write a i x => exact ⟨hw.vals, hw.valid⟩

theorem setDelegate_slots {w : World} (hw : MapShape w) (provider : Option LoggerProvider)
    (t : Nat) (obj : logger) (h : w.heap[t]? = some obj) :
    (loggerProvider.setDelegate w provider).world.heap[t]? = some obj ∨
      ∃ (b : LoggerProvider) (d : AtomicValue), provider = some b ∧
        obj.delegate.Store (b.Logger obj.name (readSlice w.arrays obj.opts)) = .ok d ∧
        (loggerProvider.setDelegate w provider).world.heap[t]?
          = some { obj with delegate := d } := by
  obtain ⟨-, -, w1, hw1, harr, hcase⟩ := setDelegate_world w provider
  rcases hcase with hcase | hcase
  · rw [hcase, hw1]
    exact Or.inl h
  · rw [hcase]
    cases provider with
    | none =>
      rw [rangeSetDelegate_nil_provider, hw1]
      exact Or.inl h
    | some b =>
      obtain ⟨-, -, i3, -, -⟩ := rangeSetDelegate_effect b (entries w.p.loggers) w1 hw.vals
      rcases (i3 t obj (hw1 ▸ h)).2.1 with h2 | ⟨d, hs, h2⟩
      · exact Or.inl h2
      · rw [harr] at hs
        exact Or.inr ⟨b, d, rfl, hs, h2⟩

theorem step_heap_same_or_new (w : World) (op : Op) (hop : installs [op] = 0) :
    (step w op).heap = w.heap ∨
      ∃ (name : String) (opts : Slice),
        (step w op).heap = w.heap ++ [⟨name, opts, w.addr, AtomicValue.zero⟩] := by
  cases op with
  | Logger name opts =>
    rcases Logger_heap w name opts with ⟨h1, -⟩ | ⟨h1, -⟩
    · exact Or.inl h1
    · exact Or.inr ⟨name, opts, h1⟩
  | setDelegate provider => simp [installs] at hop
  | Emit t r => exact Or.inl (Emit_world w t r).1
  | write a i x => exact Or.inl rfl

theorem installs_cons (op : Op) (ops : List Op) :
    installs (op :: ops) = installs [op] + installs ops := by
  cases op <;> simp [installs]
  omega

theorem installs_append (ops1 ops2 : List Op) :
    installs (ops1 ++ ops2) = installs ops1 + installs ops2 := by
  induction ops1 with
  | nil => simp [installs]
  | cons op rest ih =>
    rw [List.cons_append, installs_cons, installs_cons op rest, ih]
    omega

theorem run_append (ops1 ops2 : List Op) :
    ∀ w : World, run w (ops1 ++ ops2) = run (run w ops1) ops2 := by
  induction ops1 with
  | nil => intro w; rfl
  | cons op rest ih =>
    intro w
    exact ih (step w op)

theorem run_mapShape (ops : List Op) : ∀ {w : World}, MapShape w → MapShape (run w ops) := by
  induction ops with
  | nil => intro w hw; exact hw
  | cons op rest ih =>
    intro w hw
    exact ih (step_mapShape hw op)

theorem mapShape_init (addr : Nat) (arrays : List (List LoggerOption)) :
    MapShape (init addr arrays) :=
  ⟨by simp [init, entries], by simp [init, entries]⟩

theorem run_keeps (ops : List Op) :
    ∀ {w : World}, installs ops = 0 → ∀ (t : Nat) (obj : logger),
      w.heap[t]? = some obj → (run w ops).heap[t]? = some obj := by
  induction ops with
  | nil => intro w _ t obj h; exact h
  | cons op rest ih =>
    intro w hi t obj h
    rw [installs_cons] at hi
    apply ih (by omega)
    rcases step_heap_same_or_new w op (by omega) with e | ⟨name, opts, e⟩
    · rw [e]
      exact h
    · rw [e, List.getElem?_append_left (List.getElem?_eq_some_iff.mp h).1]
      exact h

theorem run_untouched (ops : List Op) :
    ∀ {w : World}, installs ops = 0 → Untouched w → Untouched (run w ops) := by
  induction ops with
  | nil => intro w _ hw; exact hw
  | cons op rest ih =>
    intro w hi hw
    rw [installs_cons] at hi
    apply ih (by omega)
    intro obj hobj
    rcases step_heap_same_or_new w op (by omega) with e | ⟨name, opts, e⟩
    · rw [e] at hobj
      exact hw obj hobj
    · rw [e] at hobj
      rcases List.mem_append.mp hobj with hobj | hobj
      · exact hw obj hobj
      · rw [List.mem_singleton.mp hobj]

theorem run_storedOnce_quiet (ops : List Op) :
    ∀ {w : World}, installs ops = 0 → StoredOnce w → StoredOnce (run w ops) := by
  induction ops with
  | nil => intro w _ hw; exact hw
  | cons op rest ih =>
    intro w hi hw
    rw [installs_cons] at hi
    apply ih (by omega)
    intro obj hobj
    rcases step_heap_same_or_new w op (by omega) with e | ⟨name, opts, e⟩
    · rw [e] at hobj
      exact hw obj hobj
    · rw [e] at hobj
      rcases List.mem_append.mp hobj with hobj | hobj
      · exact hw obj hobj
      · rw [List.mem_singleton.mp hobj]
        exact Or.inl rfl

theorem install_storedOnce {w : World} (hs : MapShape w) (hw : Untouched w)
    (provider : Option LoggerProvider) :
    StoredOnce (loggerProvider.setDelegate w provider).world := by
  intro obj hobj
  obtain ⟨t, ht⟩ := List.getElem?_of_mem hobj
  have hlt : t < w.heap.length := by
    rw [← (setDelegate_world w provider).1]
    exact (List.getElem?_eq_some_iff.mp ht).1
  have h0 : w.heap[t]? = some w.heap[t] := List.getElem?_eq_getElem hlt
  have hz := hw _ (List.getElem?_mem h0)
  rcases setDelegate_slots hs provider t _ h0 with h2 | ⟨b, d, -, hst, h2⟩
  · rw [ht] at h2
    cases h2
    exact Or.inl hz
  · rw [ht] at h2
    cases h2
    rw [hz] at hst
    obtain ⟨v, -, hd⟩ := store_zero hst
    exact Or.inr ⟨v, hd⟩

theorem run_storedOnce (ops : List Op) :
    ∀ {w : World}, MapShape w → Untouched w → installs ops ≤ 1 → StoredOnce (run w ops) := by
  induction ops with
  | nil =>
    intro w _ hw _ obj hobj
    exact Or.inl (hw obj hobj)
  | cons op rest ih =>
    intro w hs hw hi
    rw [installs_cons] at hi
    cases op with
    | setDelegate provider =>
      have hr : installs rest = 0 := by
        simp only [installs] at hi
        omega
      exact run_storedOnce_quiet rest hr (install_storedOnce hs hw provider)
    | Logger name opts =>
      exact ih (step_mapShape hs _)
        (run_untouched [Op.Logger name opts] rfl hw) (by omega)
    | Emit t r =>
      exact ih (step_mapShape hs _)
        (run_untouched [Op.Emit t r] rfl hw) (by omega)
    | write a i x =>
      exact ih (step_mapShape hs _)
        (run_untouched [Op.write a i x] rfl hw) (by omega)

/-- C5: in every sequence of registry operations with at most one
`setDelegate`, a placeholder's delegate slot is empty when the object first
appears, at every later point it is either still empty with no store made or
populated by exactly one store, and once it is populated the object, slot
included, stays as it is under all later operations. -/
theorem C5_slot_written_at_most_once (addr : Nat) (arrays : List (List LoggerOption))
    (ops1 ops2 : List Op)
    (hinst : installs (ops1 ++ ops2) ≤ 1) (t : Nat) :
    (∀ (op : Op) (obj : logger), (run (init addr arrays) ops1).heap[t]? = none →
      (step (run (init addr arrays) ops1) op).heap[t]? = some obj →
      obj.delegate = AtomicValue.zero) ∧
    (∀ obj : logger, (run (init addr arrays) (ops1 ++ ops2)).heap[t]? = some obj →
      obj.delegate = AtomicValue.zero ∨ ∃ v, obj.delegate = ⟨some v, 1⟩) ∧
    (∀ (obj : logger) (x : LoggerValue), (run (init addr arrays) ops1).heap[t]? = some obj →
      obj.delegate.Load = some x →
      (run (init addr arrays) (ops1 ++ ops2)).heap[t]? = some obj) := by
  have hu0 : Untouched (init addr arrays) := by
    intro obj hobj
    simp [init] at hobj
  rw [installs_append] at hinst
  refine ⟨?_, ?_, ?_⟩
  · intro op obj hnone hsome
    have hge : (run (init addr arrays) ops1).heap.length ≤ t := by
      by_contra hlt
      rw [List.getElem?_eq_getElem (Nat.lt_of_not_le hlt)] at hnone
      cases hnone
    cases op with
    | setDelegate provider =>
      have hlen := (setDelegate_world (run (init addr arrays) ops1) provider).1
      have hlt := (List.getElem?_eq_some_iff.mp hsome).1
      have hlt' : t < (loggerProvider.setDelegate (run (init addr arrays) ops1)
          provider).world.heap.length := hlt
      omega
    | Logger name opts =>
      rcases Logger_heap (run (init addr arrays) ops1) name opts with ⟨h1, -⟩ | ⟨h1, -⟩
      · have hsome' : (loggerProvider.Logger (run (init addr arrays) ops1) name opts).2.heap[t]?
            = some obj := hsome
        rw [h1, hnone] at hsome'
        cases hsome'
      · have hsome' : (loggerProvider.Logger (run (init addr arrays) ops1) name opts).2.heap[t]?
            = some obj := hsome
        rw [h1] at hsome'
        have hmem := List.getElem?_mem hsome'
        rcases List.mem_append.mp hmem with hm | hm
        · rw [List.getElem?_append_right hge] at hsome'
          have := List.getElem?_mem hsome'
          rw [List.mem_singleton.mp this]
        · rw [List.mem_singleton.mp hm]
    | Emit t' r =>
      have hsome' : (logger.Emit (run (init addr arrays) ops1) t' r).world.heap[t]?
          = some obj := hsome
      rw [(Emit_world _ t' r).1, hnone] at hsome'
      cases hsome'
    | write a i x =>
      have hsome' : (run (init addr arrays) ops1).heap[t]? = some obj := hsome
      rw [hnone] at hsome'
      cases hsome'
  · intro obj hobj
    have hso := run_storedOnce (ops1 ++ ops2) (mapShape_init addr arrays) hu0
      (by rw [installs_append]; exact hinst)
    exact hso obj (List.getElem?_mem hobj)
  · intro obj x hobj hx
    rw [run_append]
    by_cases h1 : installs ops1 = 0
    · have hu := run_untouched ops1 h1 hu0 obj (List.getElem?_mem hobj)
      rw [hu] at hx
      cases hx
    · exact run_keeps ops2 (by omega) t obj hobj

/-- Witness of C5: a handle acquired, its slice overwritten, the backend
installed, then an `Emit` on the handle, another write and a further `Logger`
call. -/
theorem C5_slot_written_at_most_once_witness :
    (∀ (op : Op) (obj : logger),
      (run (init 0 [[.WithSchemaURL "u"]])
        [.Logger "svc-a" ⟨0, 0, 1⟩, .write 0 0 (.WithSchemaURL "w"),
          .setDelegate (some sampleBackend)]).heap[0]? = none →
      (step (run (init 0 [[.WithSchemaURL "u"]])
        [.Logger "svc-a" ⟨0, 0, 1⟩, .write 0 0 (.WithSchemaURL "w"),
          .setDelegate (some sampleBackend)]) op).heap[0]? = some obj →
      obj.delegate = AtomicValue.zero) ∧
    (∀ obj : logger,
      (run (init 0 [[.WithSchemaURL "u"]])
        ([.Logger "svc-a" ⟨0, 0, 1⟩, .write 0 0 (.WithSchemaURL "w"),
          .setDelegate (some sampleBackend)] ++
        [.Emit 0 ⟨"R2", 9⟩, .write 0 0 (.WithSchemaURL "x"),
          .Logger "svc-b" ⟨0, 0, 0⟩])).heap[0]? = some obj →
      obj.delegate = AtomicValue.zero ∨ ∃ v, obj.delegate = ⟨some v, 1⟩) ∧
    (∀ (obj : logger) (x : LoggerValue),
      (run (init 0 [[.WithSchemaURL "u"]])
        [.Logger "svc-a" ⟨0, 0, 1⟩, .write 0 0 (.WithSchemaURL "w"),
          .setDelegate (some sampleBackend)]).heap[0]? = some obj →
      obj.delegate.Load = some x →
      (run (init 0 [[.WithSchemaURL "u"]])
        ([.Logger "svc-a" ⟨0, 0, 1⟩, .write 0 0 (.WithSchemaURL "w"),
          .setDelegate (some sampleBackend)] ++
        [.Emit 0 ⟨"R2", 9⟩, .write 0 0 (.WithSchemaURL "x"),
          .Logger "svc-b" ⟨0, 0, 0⟩])).heap[0]? = some obj) :=
  C5_slot_written_at_most_once 0 [[.WithSchemaURL "u"]]
    [.Logger "svc-a" ⟨0, 0, 1⟩, .write 0 0 (.WithSchemaURL "w"),
      .setDelegate (some sampleBackend)]
    [.Emit 0 ⟨"R2", 9⟩, .write 0 0 (.WithSchemaURL "x"), .Logger "svc-b" ⟨0, 0, 0⟩]
    (by decide) 0

/-! ## Threads calling `Logger` with one key -/

theorem getElem?_set_cases {l : List Thread} {i j : Nat} {a x : Thread}
    (h : (l.set i a)[j]? = some x) : (j = i ∧ x = a) ∨ (j ≠ i ∧ l[j]? = some x) := by
  by_cases hij : i = j
  · subst hij
    rw [List.getElem?_set] at h
    simp only [if_true] at h
    split at h
    · cases h
      exact Or.inl ⟨rfl, rfl⟩
    · cases h
  · rw [List.getElem?_set_ne hij] at h
    exact Or.inr ⟨fun e => hij e.symm, h⟩

theorem good_congr {k : il} {w w' : World} (hh : w'.heap = w.heap)
    (he : entries w'.p.loggers = entries w.p.loggers) (pc : Pc) (h : pc.Good k w) :
    pc.Good k w' := by
  cases pc <;> simp only [Pc.Good, hh, he] at h ⊢ <;> exact h

theorem inv_update {k : il} {m : Machine} {i : Nat} {th : Thread} (hm : m.Inv k)
    (hth : m.threads[i]? = some th) (pc' : Pc) (w' : World) (mtx' : Bool)
    (hd : w'.p.delegate = none) (harr : w'.arrays = m.w.arrays)
    (hshape : (w'.heap = [] ∧ entries w'.p.loggers = []) ∨
      (w'.heap.length = 1 ∧ entries w'.p.loggers = [(k, 0)]))
    (hgood : pc'.Good k w')
    (hothers : ∀ (j : Nat) (thj : Thread), j ≠ i → m.threads[j]? = some thj →
      thj.pc.inside = false)
    (hog : ∀ (j : Nat) (thj : Thread), j ≠ i → m.threads[j]? = some thj →
      thj.pc.Good k w')
    (hmtx : mtx' = pc'.inside) :
    Machine.Inv k ⟨w', mtx', m.threads.set i { th with pc := pc' }⟩ := by
  have hlt : i < m.threads.length := (List.getElem?_eq_some_iff.mp hth).1
  refine ⟨hd, hshape, ?_, ?_, ?_, ?_⟩
  · intro j thj hj
    show keyOf thj.name (readSlice w'.arrays thj.opts) = k ∧ thj.pc.Good k w'
    rw [harr]
    rcases getElem?_set_cases hj with ⟨rfl, rfl⟩ | ⟨hne, hj'⟩
    · exact ⟨(hm.good _ th hth).1, hgood⟩
    · exact ⟨(hm.good j thj hj').1, hog j thj hne hj'⟩
  · intro hfree j thj hj
    rcases getElem?_set_cases hj with ⟨rfl, rfl⟩ | ⟨hne, hj'⟩
    · show pc'.inside = false
      rw [← hmtx]
      exact hfree
    · exact hothers j thj hne hj'
  · intro a b tha thb ha hb hia hib
    rcases getElem?_set_cases ha with ⟨rfl, rfl⟩ | ⟨hna, ha'⟩
    · rcases getElem?_set_cases hb with ⟨rfl, rfl⟩ | ⟨hnb, hb'⟩
      · rfl
      · rw [hothers b thb hnb hb'] at hib
        cases hib
    · rw [hothers a tha hna ha'] at hia
      cases hia
  · intro hheld
    refine ⟨i, { th with pc := pc' }, List.getElem?_set_self hlt, ?_⟩
    show pc'.inside = true
    rw [← hmtx]
    exact hheld

theorem inv_start (addr : Nat) (arrays : List (List LoggerOption))
    (args : List (String × Slice)) (k : il)
    (hkey : ∀ a ∈ args, keyOf a.1 (readSlice arrays a.2) = k) :
    (Machine.start addr arrays args).Inv k := by
  have hpc : ∀ (i : Nat) (th : Thread),
      (Machine.start addr arrays args).threads[i]? = some th →
      keyOf th.name (readSlice arrays th.opts) = k ∧ th.pc = .atLock := by
    intro i th h
    have hmem := List.getElem?_mem h
    simp only [Machine.start, List.mem_map] at hmem
    obtain ⟨a, ha, rfl⟩ := hmem
    exact ⟨hkey a ha, rfl⟩
  refine ⟨rfl, Or.inl ⟨rfl, rfl⟩, ?_, ?_, ?_, ?_⟩
  · intro i th h
    obtain ⟨h1, h2⟩ := hpc i th h
    refine ⟨h1, ?_⟩
    rw [h2]
    trivial
  · intro _ i th h
    rw [(hpc i th h).2]
    rfl
  · intro i j thi thj hi _ hin _
    rw [(hpc i thi hi).2] at hin
    cases hin
  · intro h
    cases h

theorem others_outside {k : il} {m : Machine} {i : Nat} {th : Thread} (hm : m.Inv k)
    (hth : m.threads[i]? = some th) (hin : th.pc.inside = true) :
    m.mtx = true ∧
    ∀ (j : Nat) (thj : Thread), j ≠ i → m.threads[j]? = some thj →
      thj.pc.inside = false := by
  constructor
  · cases hmtx : m.mtx with
    | true => rfl
    | false =>
      rw [hm.free hmtx i th hth] at hin
      cases hin
  · intro j thj hne hj
    cases hins : thj.pc.inside with
    | false => rfl
    | true => exact absurd (hm.alone j i thj th hj hth hins hin) hne

theorem step_inv {k : il} {m : Machine} (hm : m.Inv k) (i : Nat) : (m.step i).Inv k := by
  cases hth : m.threads[i]? with
  | none =>
    unfold Machine.step
    rw [hth]
    exact hm
  | some th =>
    obtain ⟨name, opts, pc⟩ := th
    obtain ⟨hk, hg⟩ := hm.good i _ hth
    have hsame : ∀ (j : Nat) (thj : Thread), j ≠ i → m.threads[j]? = some thj →
        thj.pc.Good k m.w := fun j thj _ hj => (hm.good j thj hj).2
    cases pc with
    | atLock =>
      cases hmtx : m.mtx with
      | true =>
        have e : m.step i = m := by
          unfold Machine.step
          rw [hth]
          simp only [hmtx, if_true]
        rw [e]
        exact hm
      | false =>
        have e : m.step i =
            ⟨m.w, true, m.threads.set i { (⟨name, opts, .atLock⟩ : Thread) with
              pc := .atDelegate }⟩ := by
          unfold Machine.step
          rw [hth]
          simp only [hmtx, Bool.false_eq_true, if_false]
        rw [e]
        exact inv_update hm hth .atDelegate m.w true hm.nodelegate rfl hm.shape trivial
          (fun j thj _ hj => hm.free hmtx j thj hj) hsame rfl
    | atDelegate =>
      obtain ⟨hmtx, hothers⟩ := others_outside hm hth rfl
      have e : m.step i =
          ⟨m.w, m.mtx, m.threads.set i { (⟨name, opts, .atDelegate⟩ : Thread) with
            pc := .atLookup }⟩ := by
        unfold Machine.step
        rw [hth]
        simp only [hm.nodelegate]
      rw [e]
      exact inv_update hm hth .atLookup m.w m.mtx hm.nodelegate rfl hm.shape trivial hothers
        hsame hmtx
    | atLookup =>
      obtain ⟨hmtx, hothers⟩ := others_outside hm hth rfl
      have hk' : (⟨name,
          (NewLoggerConfig (readSlice m.w.arrays opts)).InstrumentationVersion⟩ : il) = k := hk
      rcases hm.shape with ⟨hh, he⟩ | ⟨hh, he⟩
      · have e : m.step i =
            ⟨{ m.w with p := { m.w.p with loggers := some (entries m.w.p.loggers) } }, m.mtx,
              m.threads.set i { (⟨name, opts, .atLookup⟩ : Thread) with
                pc := .atInsert k }⟩ := by
          unfold Machine.step
          rw [hth]
          simp only [he, mapGet, hk']
        rw [e]
        exact inv_update hm hth (.atInsert k) _ m.mtx hm.nodelegate rfl (Or.inl ⟨hh, he⟩)
          ⟨rfl, hh, he⟩ hothers
          (fun j thj hne hj => good_congr rfl rfl _ (hsame j thj hne hj)) hmtx
      · have e : m.step i =
            ⟨{ m.w with p := { m.w.p with loggers := some (entries m.w.p.loggers) } }, m.mtx,
              m.threads.set i { (⟨name, opts, .atLookup⟩ : Thread) with
                pc := .atUnlock (.placeholder 0) }⟩ := by
          unfold Machine.step
          rw [hth]
          simp only [he, mapGet, hk', if_true]
        rw [e]
        exact inv_update hm hth (.atUnlock (.placeholder 0)) _ m.mtx hm.nodelegate rfl
          (Or.inr ⟨hh, he⟩) ⟨rfl, hh, he⟩ hothers
          (fun j thj hne hj => good_congr rfl rfl _ (hsame j thj hne hj)) hmtx
    | atInsert key =>
      obtain ⟨hmtx, hothers⟩ := others_outside hm hth rfl
      obtain ⟨hkk, hh, he⟩ : key = k ∧ m.w.heap = [] ∧ entries m.w.p.loggers = [] := hg
      have e : m.step i =
          ⟨{ m.w with
              heap := m.w.heap ++ [⟨name, opts, m.w.addr, AtomicValue.zero⟩]
              p := { m.w.p with loggers := some [(k, 0)] } }, m.mtx,
            m.threads.set i { (⟨name, opts, .atInsert key⟩ : Thread) with
              pc := .atUnlock (.placeholder 0) }⟩ := by
        unfold Machine.step
        rw [hth]
        simp only [he, hh, mapSet, hkk, List.length_nil]
      rw [e]
      refine inv_update hm hth (.atUnlock (.placeholder 0)) _ m.mtx hm.nodelegate rfl
        (Or.inr ⟨?_, rfl⟩) ⟨rfl, ?_, rfl⟩ hothers ?_ hmtx
      · simp [hh]
      · simp [hh]
      · intro j thj hne hj
        have hgj := hsame j thj hne hj
        have hoj := hothers j thj hne hj
        cases hpc : thj.pc with
        | atLock => trivial
        | atDelegate => rw [hpc] at hoj; cases hoj
        | atLookup => rw [hpc] at hoj; cases hoj
        | atInsert key' => rw [hpc] at hoj; cases hoj
        | atUnlock ret => rw [hpc] at hoj; cases hoj
        | done ret =>
          rw [hpc] at hgj
          have hlen : m.w.heap.length = 1 := hgj.2.1
          rw [hh] at hlen
          cases hlen
    | atUnlock ret =>
      obtain ⟨-, hothers⟩ := others_outside hm hth rfl
      have e : m.step i =
          ⟨m.w, false, m.threads.set i { (⟨name, opts, .atUnlock ret⟩ : Thread) with
            pc := .done ret }⟩ := by
        unfold Machine.step
        rw [hth]
      rw [e]
      exact inv_update hm hth (.done ret) m.w false hm.nodelegate rfl hm.shape hg hothers
        hsame rfl
    | done ret =>
      have e : m.step i = m := by
        unfold Machine.step
        rw [hth]
      rw [e]
      exact hm

theorem exec_inv {k : il} (sched : List Nat) :
    ∀ {m : Machine}, m.Inv k → (m.exec sched).Inv k := by
  induction sched with
  | nil => intro m hm; exact hm
  | cons i rest ih =>
    intro m hm
    exact ih (step_inv hm i)

theorem step_threads (m : Machine) (i : Nat) (th : Thread)
    (hth : m.threads[i]? = some th) :
    ((th.pc.inside = true ∨ (th.pc = .atLock ∧ m.mtx = false)) →
      ∃ pc' : Pc, (m.step i).threads = m.threads.set i { th with pc := pc' } ∧
        pc'.remaining < th.pc.remaining) ∧
    (m.step i = m ∨
      ∃ pc' : Pc, (m.step i).threads = m.threads.set i { th with pc := pc' }) := by
  obtain ⟨name, opts, pc⟩ := th
  cases pc with
  | atLock =>
    cases hmtx : m.mtx with
    | true =>
      have e : m.step i = m := by
        unfold Machine.step
        rw [hth]
        simp only [hmtx, if_true]
      refine ⟨?_, Or.inl e⟩
      rintro (h | ⟨-, h⟩)
      · cases h
      · cases h
    | false =>
      have e : (m.step i).threads = m.threads.set i ⟨name, opts, .atDelegate⟩ := by
        unfold Machine.step
        rw [hth]
        simp only [hmtx, Bool.false_eq_true, if_false]
      exact ⟨fun _ => ⟨_, e, by simp [Pc.remaining]⟩, Or.inr ⟨_, e⟩⟩
  | atDelegate =>
    cases hd : m.w.p.delegate with
    | none =>
      have e : (m.step i).threads = m.threads.set i ⟨name, opts, .atLookup⟩ := by
        unfold Machine.step
        rw [hth]
        simp only [hd]
      exact ⟨fun _ => ⟨_, e, by simp [Pc.remaining]⟩, Or.inr ⟨_, e⟩⟩
    | some b =>
      have e : (m.step i).threads =
          m.threads.set i
            ⟨name, opts, .atUnlock (.backend (b.Logger name (readSlice m.w.arrays opts)))⟩ := by
        unfold Machine.step
        rw [hth]
        simp only [hd]
      exact ⟨fun _ => ⟨_, e, by simp [Pc.remaining]⟩, Or.inr ⟨_, e⟩⟩
  | atLookup =>
    cases hget : mapGet (⟨name,
        (NewLoggerConfig (readSlice m.w.arrays opts)).InstrumentationVersion⟩ : il)
        (entries m.w.p.loggers) with
    | none =>
      have e : (m.step i).threads = m.threads.set i
          ⟨name, opts, .atInsert ⟨name,
            (NewLoggerConfig (readSlice m.w.arrays opts)).InstrumentationVersion⟩⟩ := by
        unfold Machine.step
        rw [hth]
        simp only [hget]
      exact ⟨fun _ => ⟨_, e, by simp [Pc.remaining]⟩, Or.inr ⟨_, e⟩⟩
    | some val =>
      have e : (m.step i).threads =
          m.threads.set i ⟨name, opts, .atUnlock (.placeholder val)⟩ := by
        unfold Machine.step
        rw [hth]
        simp only [hget]
      exact ⟨fun _ => ⟨_, e, by simp [Pc.remaining]⟩, Or.inr ⟨_, e⟩⟩
  | atInsert key =>
    have e : (m.step i).threads =
        m.threads.set i ⟨name, opts, .atUnlock (.placeholder m.w.heap.length)⟩ := by
      unfold Machine.step
      rw [hth]
    exact ⟨fun _ => ⟨_, e, by simp [Pc.remaining]⟩, Or.inr ⟨_, e⟩⟩
  | atUnlock ret =>
    have e : (m.step i).threads = m.threads.set i ⟨name, opts, .done ret⟩ := by
      unfold Machine.step
      rw [hth]
    exact ⟨fun _ => ⟨_, e, by simp [Pc.remaining]⟩, Or.inr ⟨_, e⟩⟩
  | done ret =>
    have e : m.step i = m := by
      unfold Machine.step
      rw [hth]
    refine ⟨?_, Or.inl e⟩
    rintro (h | ⟨h, -⟩)
    · cases h
    · cases h

theorem remaining_set :
    ∀ (l : List Thread) (i : Nat) (th th' : Thread), l[i]? = some th →
      remaining (l.set i th') + th.pc.remaining = remaining l + th'.pc.remaining
  | [], _, _, _, h => by simp at h
  | a :: rest, 0, th, th', h => by
    simp only [List.getElem?_cons_zero, Option.some.injEq] at h
    subst h
    simp only [List.set_cons_zero, remaining]
    omega
  | a :: rest, i + 1, th, th', h => by
    simp only [List.getElem?_cons_succ] at h
    have ih := remaining_set rest i th th' h
    simp only [List.set_cons_succ, remaining]
    omega

theorem remaining_pos :
    ∀ (l : List Thread), remaining l ≠ 0 →
      ∃ (i : Nat) (th : Thread), l[i]? = some th ∧ th.pc.remaining ≠ 0
  | [], h => absurd rfl h
  | a :: rest, h => by
    by_cases ha : a.pc.remaining = 0
    · have hr : remaining rest ≠ 0 := by
        intro e
        apply h
        simp only [remaining, ha, e]
      obtain ⟨i, th, hi, hth⟩ := remaining_pos rest hr
      exact ⟨i + 1, th, by simpa using hi, hth⟩
    · exact ⟨0, a, List.getElem?_cons_zero, ha⟩

theorem remaining_zero :
    ∀ (l : List Thread), remaining l = 0 → ∀ th ∈ l, ∃ ret, th.pc = .done ret
  | [], _, th, h => by simp at h
  | a :: rest, h0, th, h => by
    simp only [remaining] at h0
    rcases List.mem_cons.mp h with rfl | h
    · have ha : th.pc.remaining = 0 := by omega
      cases hpc : th.pc with
      | done ret => exact ⟨ret, rfl⟩
      | atLock => rw [hpc] at ha; cases ha
      | atDelegate => rw [hpc] at ha; cases ha
      | atLookup => rw [hpc] at ha; cases ha
      | atInsert key => rw [hpc] at ha; cases ha
      | atUnlock ret => rw [hpc] at ha; cases ha
    · exact remaining_zero rest (by omega) th h

theorem some_thread_can_step {k : il} {m : Machine} (hm : m.Inv k)
    (hrem : remaining m.threads ≠ 0) :
    ∃ i : Nat, remaining (m.step i).threads < remaining m.threads := by
  have key : ∃ (i : Nat) (th : Thread), m.threads[i]? = some th ∧
      (th.pc.inside = true ∨ (th.pc = .atLock ∧ m.mtx = false)) := by
    cases hmtx : m.mtx with
    | true =>
      obtain ⟨i, th, hth, hin⟩ := hm.held hmtx
      exact ⟨i, th, hth, Or.inl hin⟩
    | false =>
      obtain ⟨i, th, hth, hne⟩ := remaining_pos m.threads hrem
      refine ⟨i, th, hth, Or.inr ⟨?_, rfl⟩⟩
      have hout := hm.free hmtx i th hth
      cases hpc : th.pc with
      | atLock => rfl
      | done ret => rw [hpc] at hne; exact absurd rfl hne
      | atDelegate => rw [hpc] at hout; cases hout
      | atLookup => rw [hpc] at hout; cases hout
      | atInsert key => rw [hpc] at hout; cases hout
      | atUnlock ret => rw [hpc] at hout; cases hout
  obtain ⟨i, th, hth, hen⟩ := key
  obtain ⟨pc', e, hlt⟩ := (step_threads m i th hth).1 hen
  refine ⟨i, ?_⟩
  rw [e]
  have := remaining_set m.threads i th { th with pc := pc' } hth
  have hpc : ({ th with pc := pc' } : Thread).pc = pc' := rfl
  rw [hpc] at this
  omega

theorem exec_append (s1 s2 : List Nat) :
    ∀ m : Machine, m.exec (s1 ++ s2) = (m.exec s1).exec s2 := by
  induction s1 with
  | nil => intro m; rfl
  | cons i rest ih =>
    intro m
    exact ih (m.step i)

theorem can_complete {k : il} :
    ∀ (n : Nat) {m : Machine}, m.Inv k → remaining m.threads ≤ n →
      ∃ more : List Nat, remaining (m.exec more).threads = 0
  | 0, m, _, h => ⟨[], Nat.le_zero.mp h⟩
  | n + 1, m, hm, h => by
    by_cases h0 : remaining m.threads = 0
    · exact ⟨[], h0⟩
    · obtain ⟨i, hi⟩ := some_thread_can_step hm h0
      obtain ⟨more, hmore⟩ := can_complete n (step_inv hm i) (by omega)
      exact ⟨i :: more, hmore⟩

theorem step_callers (m : Machine) (i : Nat) :
    (m.step i).threads.map (fun th => (th.name, th.opts))
      = m.threads.map (fun th => (th.name, th.opts)) := by
  cases hth : m.threads[i]? with
  | none =>
    unfold Machine.step
    rw [hth]
  | some th =>
    rcases (step_threads m i th hth).2 with e | ⟨pc', e⟩
    · rw [e]
    · rw [e]
      apply List.ext_getElem?
      intro j
      simp only [List.getElem?_map]
      by_cases hij : i = j
      · subst hij
        rw [List.getElem?_set_self (List.getElem?_eq_some_iff.mp hth).1, hth]
        rfl
      · rw [List.getElem?_set_ne hij]

theorem exec_callers (sched : List Nat) :
    ∀ m : Machine, (m.exec sched).threads.map (fun th => (th.name, th.opts))
      = m.threads.map (fun th => (th.name, th.opts)) := by
  induction sched with
  | nil => intro m; rfl
  | cons i rest ih =>
    intro m
    exact (ih (m.step i)).trans (step_callers m i)

theorem solo_thread_runs_Logger (m : Machine) (i : Nat) (name : String)
    (opts : Slice) (hth : m.threads[i]? = some ⟨name, opts, .atLock⟩)
    (hfree : m.mtx = false) :
    m.exec [i, i, i, i, i] =
      ⟨(loggerProvider.Logger m.w name opts).2, false,
        m.threads.set i ⟨name, opts, .done (loggerProvider.Logger m.w name opts).1⟩⟩ := by
  have hlt : i < m.threads.length := (List.getElem?_eq_some_iff.mp hth).1
  have hself : ∀ (x : Thread), (m.threads.set i x)[i]? = some x :=
    fun x => List.getElem?_set_self hlt
  cases hd : m.w.p.delegate with
  | some b =>
    rw [Logger_installed hd]
    simp only [Machine.exec, Machine.step, hth, hfree, hself, hd, List.set_set,
      Bool.false_eq_true, if_false]
  | none =>
    cases hget : mapGet (keyOf name (readSlice m.w.arrays opts)) (entries m.w.p.loggers) with
    | some val =>
      rw [Logger_hit hd hget]
      unfold keyOf at hget
      simp only [Machine.exec, Machine.step, hth, hfree, hself, hd, hget, List.set_set,
        Bool.false_eq_true, if_false]
    | none =>
      rw [Logger_miss hd hget]
      have hset := mapSet_absent (t := m.w.heap.length) hget
      have hes : ∀ x : List (il × Nat), entries (some x) = x := fun _ => rfl
      unfold keyOf at hget hset
      simp only [Machine.exec, Machine.step, hth, hfree, hself, hd, hget, hset, List.set_set,
        Bool.false_eq_true, if_false, hes, keyOf]

theorem two_threads_example :
    ((Machine.start 0 [[.WithSchemaURL "u"]] [("svc-b", ⟨0, 0, 0⟩), ("svc-b", ⟨0, 0, 1⟩)]).exec
      [0, 1, 0, 1, 0, 0, 1, 0, 1, 1, 1, 1]).threads
      = [⟨"svc-b", ⟨0, 0, 0⟩, .done (.placeholder 0)⟩,
        ⟨"svc-b", ⟨0, 0, 1⟩, .done (.placeholder 0)⟩] := by
  decide

/-- C7: threads that call `Logger` with one identity key on a fresh registry,
under every schedule of their steps (a thread at `Lock` does not move while the
mutex is held): at every point at most one placeholder object has been built,
every call that has returned has returned that one object, the callers are the
ones that started, and the schedule can be continued so that every call
returns. -/
theorem C7_one_handle_under_every_schedule (addr : Nat)
    (arrays : List (List LoggerOption)) (args : List (String × Slice)) (k : il)
    (hkey : ∀ a ∈ args, keyOf a.1 (readSlice arrays a.2) = k) (sched : List Nat) :
    ((Machine.start addr arrays args).exec sched).w.heap.length ≤ 1 ∧
    (∀ (i : Nat) (th : Thread) (ret : Handle),
      ((Machine.start addr arrays args).exec sched).threads[i]? = some th →
      th.pc = .done ret →
      ret = .placeholder 0 ∧
        ((Machine.start addr arrays args).exec sched).w.heap.length = 1) ∧
    ((Machine.start addr arrays args).exec sched).threads.map (fun th => (th.name, th.opts))
      = args ∧
    ∃ more : List Nat,
      ∀ th ∈ ((Machine.start addr arrays args).exec (sched ++ more)).threads,
        ∃ ret, th.pc = .done ret := by
  have hinv := exec_inv sched (inv_start addr arrays args k hkey)
  refine ⟨?_, ?_, ?_, ?_⟩
  · rcases hinv.shape with ⟨hh, -⟩ | ⟨hh, -⟩
    · rw [hh]
      exact Nat.zero_le _
    · exact Nat.le_of_eq hh
  · intro i th ret hth hpc
    have hg := (hinv.good i th hth).2
    rw [hpc] at hg
    exact ⟨hg.1, hg.2.1⟩
  · rw [exec_callers]
    simp only [Machine.start, List.map_map]
    exact List.map_id _
  · obtain ⟨more, hmore⟩ := can_complete _ hinv (le_refl _)
    refine ⟨more, ?_⟩
    rw [exec_append]
    exact remaining_zero _ hmore

/-- Witness of C7: two threads asking for "svc-b" through different slices;
the second tries to lock while the first is inside. -/
theorem C7_one_handle_under_every_schedule_witness :
    ((Machine.start 0 [[.WithSchemaURL "u"]] [("svc-b", ⟨0, 0, 0⟩), ("svc-b", ⟨0, 0, 1⟩)]).exec
      [0, 1, 0, 1, 0, 0, 1, 0, 1, 1, 1, 1]).w.heap.length ≤ 1 ∧
    (∀ (i : Nat) (th : Thread) (ret : Handle),
      ((Machine.start 0 [[.WithSchemaURL "u"]]
        [("svc-b", ⟨0, 0, 0⟩), ("svc-b", ⟨0, 0, 1⟩)]).exec
        [0, 1, 0, 1, 0, 0, 1, 0, 1, 1, 1, 1]).threads[i]? = some th →
      th.pc = .done ret →
      ret = .placeholder 0 ∧
        ((Machine.start 0 [[.WithSchemaURL "u"]]
          [("svc-b", ⟨0, 0, 0⟩), ("svc-b", ⟨0, 0, 1⟩)]).exec
          [0, 1, 0, 1, 0, 0, 1, 0, 1, 1, 1, 1]).w.heap.length = 1) ∧
    ((Machine.start 0 [[.WithSchemaURL "u"]] [("svc-b", ⟨0, 0, 0⟩), ("svc-b", ⟨0, 0, 1⟩)]).exec
      [0, 1, 0, 1, 0, 0, 1, 0, 1, 1, 1, 1]).threads.map (fun th => (th.name, th.opts))
      = [("svc-b", ⟨0, 0, 0⟩), ("svc-b", ⟨0, 0, 1⟩)] ∧
    ∃ more : List Nat,
      ∀ th ∈ ((Machine.start 0 [[.WithSchemaURL "u"]]
          [("svc-b", ⟨0, 0, 0⟩), ("svc-b", ⟨0, 0, 1⟩)]).exec
          ([0, 1, 0, 1, 0, 0, 1, 0, 1, 1, 1, 1] ++ more)).threads,
        ∃ ret, th.pc = .done ret :=
  C7_one_handle_under_every_schedule 0 [[.WithSchemaURL "u"]]
    [("svc-b", ⟨0, 0, 0⟩), ("svc-b", ⟨0, 0, 1⟩)] ⟨"svc-b", ""⟩ (by decide)
    [0, 1, 0, 1, 0, 0, 1, 0, 1, 1, 1, 1]

end global

namespace otlplogshttp

/-! ## The option constructors -/

/-- C8: for each of the eight option constructors, applying the returned
`Option` through `applyHTTPOption` to a configuration gives exactly what the
wrapped `otlpconfig` option's `ApplyHTTPOption` gives, which is the
configuration with the one field the constructor names replaced and every other
field as it was. -/
theorem C8_constructors_update_their_field (cfg : otlpconfig.Config)
    (endpoint urlPath : String) (compression : Compression) (tlsCfg : tls.ConfigPtr)
    (headers : List (String × String)) (duration : Int) (rc : RetryConfig) :
    ((WithEndpoint endpoint).applyHTTPOption cfg
        = (otlpconfig.WithEndpoint endpoint).ApplyHTTPOption cfg ∧
      (WithEndpoint endpoint).applyHTTPOption cfg = { cfg with Endpoint := endpoint }) ∧
    ((WithCompression compression).applyHTTPOption cfg
        = (otlpconfig.WithCompression compression.raw).ApplyHTTPOption cfg ∧
      (WithCompression compression).applyHTTPOption cfg
        = { cfg with Compression := compression.raw }) ∧
    ((WithURLPath urlPath).applyHTTPOption cfg
        = (otlpconfig.WithURLPath urlPath).ApplyHTTPOption cfg ∧
      (WithURLPath urlPath).applyHTTPOption cfg = { cfg with URLPath := urlPath }) ∧
    ((WithTLSClientConfig tlsCfg).applyHTTPOption cfg
        = (otlpconfig.WithTLSClientConfig tlsCfg).ApplyHTTPOption cfg ∧
      (WithTLSClientConfig tlsCfg).applyHTTPOption cfg = { cfg with TLSCfg := tlsCfg }) ∧
    (WithInsecure.applyHTTPOption cfg = otlpconfig.WithInsecure.ApplyHTTPOption cfg ∧
      WithInsecure.applyHTTPOption cfg = { cfg with Insecure := true }) ∧
    ((WithHeaders headers).applyHTTPOption cfg
        = (otlpconfig.WithHeaders headers).ApplyHTTPOption cfg ∧
      (WithHeaders headers).applyHTTPOption cfg = { cfg with Headers := headers }) ∧
    ((WithTimeout duration).applyHTTPOption cfg
        = (otlpconfig.WithTimeout duration).ApplyHTTPOption cfg ∧
      (WithTimeout duration).applyHTTPOption cfg = { cfg with Timeout := duration }) ∧
    ((WithRetry rc).applyHTTPOption cfg
        = (otlpconfig.WithRetry rc.raw).ApplyHTTPOption cfg ∧
      (WithRetry rc).applyHTTPOption cfg = { cfg with RetryConfig := rc.raw }) :=
  ⟨⟨rfl, rfl⟩, ⟨rfl, rfl⟩, ⟨rfl, rfl⟩, ⟨rfl, rfl⟩, ⟨rfl, rfl⟩, ⟨rfl, rfl⟩, ⟨rfl, rfl⟩,
    ⟨rfl, rfl⟩⟩

end otlplogshttp
